import Mathlib

set_option linter.unusedVariables false

/-!
Verification of the retrieval core of the mind-palace-craft repository.

Strings are modelled as `List Char` (Python `str` is a sequence of code
points, and `len`, slicing, concatenation, and per-character tests all act
on that sequence).  Python's whitespace class is modelled by the six ASCII
whitespace characters; all text handled by the source is ASCII.  The
external ChromaDB client is modelled as an association list from collection
names to collections, the embedding model and the nearest-neighbour search
as an abstract query function, and the Groq generation call as a function
returning `Except` (a raised exception is the `error` case).
-/

namespace MPC

abbrev Str := List Char

/-- Whitespace test used by the embeddings of the regex class `\s`,
`str.strip` and `str.split` in `vector_db.py`. -/
def isSpaceP (c : Char) : Bool :=
  c = ' ' || c = '\t' || c = '\n' || c = '\r' || c = '\x0b' || c = '\x0c'

/-- Embedding of `re.sub(r'\s+', ' ', text)` from `chunk_text`
(vector_db.py line 50): every maximal run of whitespace becomes one space.
The flag records whether the previous character was whitespace. -/
def squeezeAux : Bool → List Char → List Char
  | true, [] => []
  | false, [] => []
  | true, c :: cs =>
    if isSpaceP c then squeezeAux true cs else c :: squeezeAux false cs
  | false, c :: cs =>
    if isSpaceP c then ' ' :: squeezeAux true cs else c :: squeezeAux false cs

/-- Embedding of Python `str.strip()`. -/
def pyStrip (s : Str) : Str :=
  ((s.dropWhile isSpaceP).reverse.dropWhile isSpaceP).reverse

/-- The cleaning step of `chunk_text` (vector_db.py line 50):
`re.sub(r'\s+', ' ', text).strip()`. -/
def cleanText (t : Str) : Str := pyStrip (squeezeAux false t)

/-- Sentence-ending punctuation of the regex `(?<=[.!?])\s+`
(vector_db.py line 53). -/
def isPunct (c : Char) : Bool := c = '.' || c = '!' || c = '?'

/-- Embedding of `re.split(r'(?<=[.!?])\s+', text)` (vector_db.py line 53),
on its actual input: cleaned text, in which every whitespace run is a
single space, so the split consumes exactly one separator character.
`acc` is the current piece, reversed. -/
def splitSentencesAux : List Char → List Char → List (List Char)
  | [], acc => [acc.reverse]
  | [c], acc => [(c :: acc).reverse]
  | c1 :: c2 :: rest, acc =>
    if isPunct c1 && isSpaceP c2 then
      (c1 :: acc).reverse :: splitSentencesAux rest []
    else splitSentencesAux (c2 :: rest) (c1 :: acc)

def splitSentences (s : Str) : List Str := splitSentencesAux s []

/-- Embedding of Python `str.split()` (no separator: split on whitespace
runs, discard empty pieces), used by `chunk_text` (vector_db.py line 63).
`acc` is the current word, reversed. -/
def splitWordsAux : List Char → List Char → List (List Char)
  | [], acc => if acc = [] then [] else [acc.reverse]
  | c :: cs, acc =>
    if isSpaceP c then
      if acc = [] then splitWordsAux cs [] else acc.reverse :: splitWordsAux cs []
    else splitWordsAux cs (c :: acc)

def splitWords (s : Str) : List Str := splitWordsAux s []

/-- Embedding of `' '.join(words)` (vector_db.py line 64). -/
def joinSpace : List Str → Str
  | [] => []
  | [w] => w
  | w :: ws => w ++ ' ' :: joinSpace ws

/-- Python negative slice `ws[-k:]` for `k ≥ 0`: for `k = 0` it is the
whole list (`ws[-0:] = ws[0:]`), otherwise the last `min k (length ws)`
elements. -/
def pySliceLast (ws : List Str) (k : Nat) : List Str :=
  if k = 0 then ws else ws.drop (ws.length - k)

/-- The sentence-accumulation loop of `chunk_text`
(vector_db.py lines 55-73), one recursive call per `for` iteration;
`cur` is `current_chunk`.  The trailing `if current_chunk` append is the
`[]` case. -/
def chunkLoop (chunkSize overlap : Nat) : List Str → Str → List Str
  | [], cur => if cur = [] then [] else [pyStrip cur]
  | s :: rest, cur =>
    if cur.length + s.length > chunkSize ∧ cur ≠ [] then
      let ws := splitWords cur
      let overlapText :=
        if overlap < ws.length then joinSpace (pySliceLast ws overlap) else cur
      pyStrip cur :: chunkLoop chunkSize overlap rest (overlapText ++ ' ' :: s)
    else
      chunkLoop chunkSize overlap rest (if cur = [] then s else cur ++ ' ' :: s)

/-- Embedding of `VectorDBManager.chunk_text` (vector_db.py lines 37-73). -/
def chunk_text (chunkSize overlap : Nat) (text : Str) : List Str :=
  chunkLoop chunkSize overlap (splitSentences (cleanText text)) []

/-- ASCII alphanumeric test; `str.isalnum` is only applied to characters
already restricted to `[a-zA-Z0-9_-]`, on which the Unicode and the ASCII
tests agree. -/
def pyIsAlnum (c : Char) : Bool :=
  ('a' ≤ c && c ≤ 'z') || ('A' ≤ c && c ≤ 'Z') || ('0' ≤ c && c ≤ '9')

/-- Characters kept by `re.sub(r'[^a-zA-Z0-9_-]', '_', name)`
(vector_db.py line 91). -/
def validChar (c : Char) : Bool := pyIsAlnum c || c = '_' || c = '-'

/-- `sanitize_collection_name`, step 1 (vector_db.py line 91): replace
every invalid character by an underscore. -/
def sanStage1 (name : Str) : Str :=
  name.map (fun c => if validChar c then c else '_')

/-- `sanitize_collection_name`, step 2 (vector_db.py lines 94-95): prepend
`c` when the string is non-empty and does not start alphanumeric. -/
def sanStage2 (s : Str) : Str :=
  match s with
  | [] => s
  | c :: _ => if pyIsAlnum c then s else 'c' :: s

/-- `sanitize_collection_name`, step 3 (vector_db.py lines 98-99): append
`0` when the string is non-empty and does not end alphanumeric. -/
def sanStage3 (s : Str) : Str :=
  match s.getLast? with
  | none => s
  | some c => if pyIsAlnum c then s else s ++ ['0']

/-- `sanitize_collection_name`, step 4 (vector_db.py lines 102-103):
append `_col` when shorter than 3 characters. -/
def sanStage4 (s : Str) : Str :=
  if s.length < 3 then s ++ ("_col").data else s

/-- `sanitize_collection_name`, step 5 (vector_db.py lines 106-110):
truncate to 63 characters and restore a trailing alphanumeric. -/
def sanStage5 (s : Str) : Str :=
  if 63 < s.length then
    match (s.take 63).getLast? with
    | none => s.take 63
    | some c => if pyIsAlnum c then s.take 63 else (s.take 63).dropLast ++ ['0']
  else s

/-- Embedding of `VectorDBManager.sanitize_collection_name`
(vector_db.py lines 75-112). -/
def sanitize_collection_name (name : Str) : Str :=
  sanStage5 (sanStage4 (sanStage3 (sanStage2 (sanStage1 name))))

/-- ChromaDB collection-name invariant stated in the docstring of
`sanitize_collection_name`: 3-63 characters, only alphanumerics,
underscores and hyphens, alphanumeric first and last character. -/
def validName (s : Str) : Bool :=
  decide (3 ≤ s.length) && decide (s.length ≤ 63) && s.all validChar &&
  (match s.head? with | none => false | some c => pyIsAlnum c) &&
  (match s.getLast? with | none => false | some c => pyIsAlnum c)

/-! ### State model of the ChromaDB client and of the RAG service -/

/-- Metadata stored with one chunk by `add_pdf_to_vector_db`
(vector_db.py lines 181-189). -/
structure ChunkMeta where
  source : Str
  chunkIndex : Nat
  chunkSize : Nat
  extra : List (Str × Str)
deriving DecidableEq

/-- One stored record: id, document text, metadata.  The embedding vector
comes from the external model and is not inspected by any claim, so it is
not carried in the model. -/
structure StoredChunk where
  id : Str
  doc : Str
  meta : ChunkMeta
deriving DecidableEq

structure Collection where
  items : List StoredChunk
deriving DecidableEq

/-- The persistent client state: association list from collection name to
collection. -/
abbrev DBState := List (Str × Collection)

/-- `client.get_collection(name)`: `none` models the exception ChromaDB
raises when no collection of that name exists. -/
def lookupCol (db : DBState) (n : Str) : Option Collection :=
  (db.find? (fun p => p.1 = n)).map (fun p => p.2)

/-- Embedding of `VectorDBManager.create_collection` without `overwrite`
(vector_db.py lines 114-145, as called by `add_pdf_to_vector_db`):
sanitize the name, then `get_or_create_collection` under the sanitized
name.  Returns the new state and the (sanitized) name used. -/
def create_collection (db : DBState) (name : Str) : DBState × Str :=
  match lookupCol db (sanitize_collection_name name) with
  | some _ => (db, sanitize_collection_name name)
  | none => (db ++ [(sanitize_collection_name name, Collection.mk [])],
      sanitize_collection_name name)

def updateCol (db : DBState) (n : Str) (f : Collection → Collection) : DBState :=
  db.map (fun p => if p.1 = n then (p.1, f p.2) else p)

/-- The ids generated by `add_pdf_to_vector_db` (vector_db.py line 192):
`f"{pdf_filename}_chunk_{i}"` for `i` in `range(len(chunks))`. -/
def chunkIds (fname : Str) (k : Nat) : List Str :=
  (List.range k).map (fun i => fname ++ ("_chunk_").data ++ Nat.toDigits 10 i)

/-- The per-chunk metadata of `add_pdf_to_vector_db`
(vector_db.py lines 181-189). -/
def chunkMetas (fname : Str) (chunks : List Str) (extra : List (Str × Str)) :
    List ChunkMeta :=
  chunks.enum.map (fun p => ChunkMeta.mk fname p.1 p.2.length extra)

/-- The records written by the single batched `collection.add` of
`add_pdf_to_vector_db` (vector_db.py lines 196-201): documents, metadatas
and ids zipped positionally. -/
def pdfBatchItems (text fname : Str) (extra : List (Str × Str)) :
    List StoredChunk :=
  ((chunkIds fname (chunk_text 500 50 text).length).zip
    ((chunk_text 500 50 text).zip
      (chunkMetas fname (chunk_text 500 50 text) extra))).map
    (fun p => StoredChunk.mk p.1 p.2.1 p.2.2)

/-- Embedding of `VectorDBManager.add_pdf_to_vector_db`
(vector_db.py lines 147-208): get-or-create the collection, chunk the text
with the default parameters `chunk_size=500, overlap=50`, build metadata
and ids, store everything in one batched `collection.add`, return the
number of chunks. -/
def add_pdf_to_vector_db (db : DBState) (collectionName text fname : Str)
    (extra : List (Str × Str)) : DBState × Nat :=
  let r := create_collection db collectionName
  (updateCol r.1 r.2
      (fun col => Collection.mk (col.items ++ pdfBatchItems text fname extra)),
   (chunk_text 500 50 text).length)

/-- What `collection.query` returns (already restricted to its first row,
as the source immediately indexes `[0]`).  Distances are floats in the
source; no claim inspects their values, so they are modelled opaquely as
integers. -/
structure RawQueryOut where
  documents : List Str
  distances : List Int
  metadatas : List ChunkMeta

/-- The dictionary returned by `query_vector_db`; the `error` key is
present exactly when the option is `some`. -/
structure QueryResult where
  error : Option Str
  documents : List Str
  distances : List Int
  metadatas : List ChunkMeta

/-- The f-string `f"Collection '{collection_name}' not found"`
(vector_db.py line 231). -/
def notFoundMsg (name : Str) : Str :=
  ("Collection \x27").data ++ name ++ ("\x27 not found").data

/-- Embedding of `VectorDBManager.query_vector_db`
(vector_db.py lines 210-250).  `qf` is the external semantic search
(query embedding plus nearest-neighbour lookup).  The `try/except` around
`client.get_collection` is the `none` branch; the raw name is looked up
without sanitization. -/
def query_vector_db (qf : Collection → Str → Nat → RawQueryOut)
    (db : DBState) (name q : Str) (n : Nat) : QueryResult :=
  match lookupCol db name with
  | none => QueryResult.mk (some (notFoundMsg name)) [] [] []
  | some col =>
    let r := qf col q n
    QueryResult.mk none r.documents r.distances r.metadatas

/-- The dictionary returned by `get_collection_stats`. -/
structure CollStats where
  name : Str
  count : Nat
  existsFlag : Bool
deriving DecidableEq

/-- Embedding of `VectorDBManager.get_collection_stats`
(vector_db.py lines 252-267): any failure of the lookup inside the
`try` yields the `except` branch `{name, 0, False}`; the raw name is
looked up without sanitization. -/
def get_collection_stats (db : DBState) (name : Str) : CollStats :=
  match lookupCol db name with
  | none => CollStats.mk name 0 false
  | some col => CollStats.mk name col.items.length true

/-- A Python exception value, reduced to its `str(e)` rendering. -/
structure PyErr where
  msg : Str

/-- Embedding of `RAGService.retrieve_context` (rag_service.py lines
35-74): on an `error` key in the query result return `([], [])`,
otherwise the documents and metadatas. -/
def retrieve_context (qf : Collection → Str → Nat → RawQueryOut)
    (db : DBState) (name q : Str) (n : Nat) : List Str × List ChunkMeta :=
  match (query_vector_db qf db name q n).error with
  | some _ => ([], [])
  | none => ((query_vector_db qf db name q n).documents,
      (query_vector_db qf db name q n).metadatas)

/-- Fixed reply of `generate_answer` when no context chunks were supplied
(rag_service.py line 94). -/
def noContextMsg : Str :=
  ("I couldn\x27t find relevant information to answer your question.").data

/-- The default grounding instruction of `generate_answer`
(rag_service.py lines 101-109), carried verbatim. -/
def defaultSystemPrompt : Str :=
  ("You are a knowledgeable tutor that provides accurate, direct answers based on the given context.\n\nYour responsibilities:\n1. Answer questions using ONLY information from the provided context\n2. Be factual, clear, and concise\n3. If the answer is not in the context, state that clearly\n4. Do not create mnemonics, acronyms, memory devices, or associations\n5. Do not make up information or add extra elaboration not supported by the context\n6. Answer the specific question asked without tangential information").data

/-- Embedding of `"\n\n---\n\n".join(context_chunks)`
(rag_service.py line 97). -/
def joinSep (sep : Str) : List Str → Str
  | [] => []
  | [x] => x
  | x :: xs => x ++ sep ++ joinSep sep xs

/-- The user prompt assembled by `generate_answer`
(rag_service.py lines 112-119). -/
def userPromptOf (context question : Str) : Str :=
  ("Based on the following context, answer the question.\n\nContext:\n").data
    ++ context
    ++ ("\n\nQuestion: ").data ++ question
    ++ ("\n\nAnswer the question directly using only the information in the context above.").data

/-- The error answer built by the `except` clause of `generate_answer`
(rag_service.py line 138): `f"Error generating answer: {str(e)}"`. -/
def errAnswerOf (e : PyErr) : Str :=
  ("Error generating answer: ").data ++ e.msg

/-- Embedding of `RAGService.generate_answer` (rag_service.py lines
76-138).  `gen` is the Groq chat-completion call, taking the system prompt
and the user prompt; `Except.error` models a raised exception, which the
source catches and converts into an error answer string. -/
def generate_answer (gen : Str → Str → Except PyErr Str)
    (question : Str) (chunks : List Str) (sysPrompt : Option Str) : Str :=
  if chunks = [] then noContextMsg
  else
    match gen (sysPrompt.getD defaultSystemPrompt)
        (userPromptOf (joinSep ("\n\n---\n\n").data chunks) question) with
    | Except.ok a => a
    | Except.error e => errAnswerOf e

/-- The fixed fallback answer of `ask` (rag_service.py line 173). -/
def fallbackAnswer : Str :=
  ("I couldn\x27t find any relevant information in the knowledge base. Please make sure PDFs have been uploaded and processed.").data

/-- One entry of the `sources` list built by `ask`
(rag_service.py lines 188-193). -/
structure SourceInfo where
  textPreview : Str
  sourceFile : Str
  chunkIndex : Nat

/-- The result dictionary of `ask`: `sources` is `some` exactly when the
key is present. -/
structure AskResult where
  answer : Str
  sources : Option (List SourceInfo)

/-- The preview `chunk[:200] + "..." if len(chunk) > 200 else chunk`
(rag_service.py line 190). -/
def previewOf (chunk : Str) : Str :=
  if 200 < chunk.length then chunk.take 200 ++ ("...").data else chunk

/-- Embedding of `RAGService.ask` (rag_service.py lines 140-197):
retrieve context; when no chunks came back return the fixed fallback with
an empty sources list (without touching `gen`); otherwise generate the
answer and, when requested, attach up to three source previews. -/
def ask (qf : Collection → Str → Nat → RawQueryOut)
    (gen : Str → Str → Except PyErr Str) (db : DBState)
    (name question : Str) (n : Nat) (includeSources : Bool) : AskResult :=
  if (retrieve_context qf db name question n).1 = [] then
    AskResult.mk fallbackAnswer (some [])
  else
    if includeSources then
      AskResult.mk
        (generate_answer gen question (retrieve_context qf db name question n).1 none)
        (some ((((retrieve_context qf db name question n).1.take 3).zip
          ((retrieve_context qf db name question n).2.take 3)).map
          (fun p => SourceInfo.mk (previewOf p.1) p.2.source p.2.chunkIndex)))
    else
      AskResult.mk
        (generate_answer gen question (retrieve_context qf db name question n).1 none)
        none

/-! ### Lemmas about words and joining -/

/-- All words produced by `str.split()` are non-empty and whitespace-free. -/
def GoodWords (ws : List Str) : Prop :=
  ∀ w ∈ ws, w ≠ [] ∧ ∀ c ∈ w, isSpaceP c = false

theorem swa_good (x : List Char) : ∀ acc, (∀ c ∈ acc, isSpaceP c = false) →
    ∀ w ∈ splitWordsAux x acc, w ≠ [] ∧ ∀ c ∈ w, isSpaceP c = false := by
  induction x with
  | nil =>
    intro acc hacc w hw
    by_cases h : acc = []
    · simp [splitWordsAux, h] at hw
    · simp only [splitWordsAux, if_neg h, List.mem_singleton] at hw
      subst hw
      refine ⟨by simpa using h, ?_⟩
      intro c hc
      exact hacc c (by simpa using hc)
  | cons c cs ih =>
    intro acc hacc w hw
    simp only [splitWordsAux] at hw
    by_cases hsp : isSpaceP c
    · rw [if_pos hsp] at hw
      by_cases h : acc = []
      · rw [if_pos h] at hw
        exact ih [] (by simp) w hw
      · rw [if_neg h] at hw
        rcases List.mem_cons.mp hw with h1 | h1
        · subst h1
          refine ⟨by simpa using h, ?_⟩
          intro d hd
          exact hacc d (by simpa using hd)
        · exact ih [] (by simp) w h1
    · rw [if_neg hsp] at hw
      refine ih (c :: acc) ?_ w hw
      intro d hd
      rcases List.mem_cons.mp hd with h1 | h1
      · subst h1; simpa using hsp
      · exact hacc d h1

theorem words_good (s : Str) : GoodWords (splitWords s) := by
  intro w hw
  exact swa_good s [] (by simp) w hw

theorem swa_append_sep (b : Str) :
    ∀ (a acc : List Char), splitWordsAux (a ++ ' ' :: b) acc =
      splitWordsAux a acc ++ splitWordsAux b [] := by
  intro a
  induction a with
  | nil =>
    intro acc
    by_cases h : acc = []
    · simp [splitWordsAux, h, isSpaceP]
    · simp [splitWordsAux, h, isSpaceP]
  | cons c cs ih =>
    intro acc
    simp only [List.cons_append, splitWordsAux, List.append_eq]
    by_cases hsp : isSpaceP c
    · rw [if_pos hsp, if_pos hsp]
      by_cases h : acc = []
      · rw [if_pos h, if_pos h, ih]
      · rw [if_neg h, if_neg h, ih, List.cons_append]
    · rw [if_neg hsp, if_neg hsp, ih]

theorem splitWords_append_sep (a b : Str) :
    splitWords (a ++ ' ' :: b) = splitWords a ++ splitWords b :=
  swa_append_sep b a []

theorem swa_nospace (w : List Char) :
    ∀ acc, (∀ c ∈ w, isSpaceP c = false) → acc.reverse ++ w ≠ [] →
      splitWordsAux w acc = [acc.reverse ++ w] := by
  induction w with
  | nil =>
    intro acc _ hne
    have h : acc ≠ [] := by
      intro h; apply hne; simp [h]
    simp [splitWordsAux, h]
  | cons c cs ih =>
    intro acc hns hne
    have hc : isSpaceP c = false := hns c (by simp)
    simp only [splitWordsAux, hc, Bool.false_eq_true, if_false]
    rw [ih (c :: acc) (fun d hd => hns d (by simp [hd])) (by simp)]
    simp

theorem splitWords_word (w : Str) (hw : w ≠ [])
    (h : ∀ c ∈ w, isSpaceP c = false) : splitWords w = [w] := by
  have := swa_nospace w [] h (by simpa using hw)
  simpa [splitWords] using this

theorem joinSpace_cons (w : Str) (ws : List Str) (h : ws ≠ []) :
    joinSpace (w :: ws) = w ++ ' ' :: joinSpace ws := by
  cases ws with
  | nil => exact absurd rfl h
  | cons v vs => rfl

theorem joinSpace_append (ws1 ws2 : List Str) (h1 : ws1 ≠ []) (h2 : ws2 ≠ []) :
    joinSpace (ws1 ++ ws2) = joinSpace ws1 ++ ' ' :: joinSpace ws2 := by
  induction ws1 with
  | nil => exact absurd rfl h1
  | cons w ws ih =>
    cases ws with
    | nil =>
      show joinSpace (w :: ws2) = joinSpace [w] ++ ' ' :: joinSpace ws2
      exact joinSpace_cons w ws2 h2
    | cons v vs =>
      rw [List.cons_append, joinSpace_cons w ((v :: vs) ++ ws2) (by simp),
        joinSpace_cons w (v :: vs) (by simp), ih (by simp)]
      simp

theorem joinSpace_split (ws : List Str) (h : GoodWords ws) :
    splitWords (joinSpace ws) = ws := by
  induction ws with
  | nil => rfl
  | cons w vs ih =>
    cases vs with
    | nil =>
      have hw := h w (by simp)
      simpa [joinSpace] using splitWords_word w hw.1 hw.2
    | cons v vs' =>
      rw [joinSpace_cons w (v :: vs') (by simp), splitWords_append_sep]
      have hw := h w (by simp)
      rw [splitWords_word w hw.1 hw.2, ih (fun u hu => h u (by simp [hu]))]
      rfl

theorem joinSpace_ne_nil (ws : List Str) (h : GoodWords ws) (hne : ws ≠ []) :
    joinSpace ws ≠ [] := by
  cases ws with
  | nil => exact absurd rfl hne
  | cons w vs =>
    have hw := (h w (by simp)).1
    cases vs with
    | nil => simp only [joinSpace]; exact hw
    | cons v vs' =>
      rw [joinSpace_cons w (v :: vs') (by simp)]
      simp [hw]

theorem joinSpace_head?_nospace (ws : List Str) (h : GoodWords ws)
    (hne : ws ≠ []) : ∀ c, (joinSpace ws).head? = some c → isSpaceP c = false := by
  intro c hc
  cases ws with
  | nil => exact absurd rfl hne
  | cons w vs =>
    have hw := h w (by simp)
    have hhead : (joinSpace (w :: vs)).head? = w.head? := by
      cases vs with
      | nil => rfl
      | cons v vs' =>
        rw [joinSpace_cons w (v :: vs') (by simp)]
        cases w with
        | nil => exact absurd rfl hw.1
        | cons a t => rfl
    rw [hhead] at hc
    cases w with
    | nil => exact absurd rfl hw.1
    | cons a t =>
      have hac : a = c := by simpa using hc
      rw [← hac]
      exact hw.2 a (by simp)

theorem mem_of_getLast?_eq {α : Type} {l : List α} {a : α}
    (h : l.getLast? = some a) : a ∈ l := by
  have hmem : a ∈ l.getLast? := by simp [Option.mem_def, h]
  obtain ⟨hne, heq⟩ := List.mem_getLast?_eq_getLast hmem
  rw [heq]
  exact List.getLast_mem hne

theorem joinSpace_getLast?_nospace (ws : List Str) (h : GoodWords ws)
    (hne : ws ≠ []) : ∀ c, (joinSpace ws).getLast? = some c → isSpaceP c = false := by
  induction ws with
  | nil => exact absurd rfl hne
  | cons w vs ih =>
    intro c hc
    cases vs with
    | nil =>
      simp only [joinSpace] at hc
      exact (h w (by simp)).2 c (mem_of_getLast?_eq hc)
    | cons v vs' =>
      rw [joinSpace_cons w (v :: vs') (by simp)] at hc
      have hjoin : joinSpace (v :: vs') ≠ [] :=
        joinSpace_ne_nil _ (fun u hu => h u (by simp [hu])) (by simp)
      rw [List.getLast?_append_of_ne_nil w
        (show (' ' :: joinSpace (v :: vs')) ≠ [] by simp)] at hc
      have hsplit : (' ' :: joinSpace (v :: vs')) = [' '] ++ joinSpace (v :: vs') := rfl
      rw [hsplit, List.getLast?_append_of_ne_nil [' '] hjoin] at hc
      exact ih (fun u hu => h u (by simp [hu])) (by simp) c hc

/-! ### Lemmas about `pyStrip` -/

theorem dropWhile_eq_self_of_head {α : Type} (p : α → Bool) (s : List α)
    (h : ∀ c, s.head? = some c → p c = false) : s.dropWhile p = s := by
  cases s with
  | nil => rfl
  | cons c t =>
    rw [List.dropWhile_cons, if_neg]
    simp [h c rfl]

theorem pyStrip_eq_self (s : Str)
    (h1 : ∀ c, s.head? = some c → isSpaceP c = false)
    (h2 : ∀ c, s.getLast? = some c → isSpaceP c = false) : pyStrip s = s := by
  unfold pyStrip
  rw [dropWhile_eq_self_of_head isSpaceP s h1]
  rw [dropWhile_eq_self_of_head isSpaceP s.reverse (by
    intro c hc
    rw [List.head?_reverse] at hc
    exact h2 c hc)]
  exact List.reverse_reverse s

/-- A canonical string: a non-empty space-separated join of non-empty
whitespace-free words.  The cleaned text and every sentence and chunk of
`chunk_text` are canonical. -/
def CanonStr (s : Str) : Prop :=
  ∃ ws, ws ≠ [] ∧ GoodWords ws ∧ s = joinSpace ws

theorem CanonStr.ne_nil {s : Str} (h : CanonStr s) : s ≠ [] := by
  obtain ⟨ws, hne, hg, rfl⟩ := h
  exact joinSpace_ne_nil ws hg hne

theorem CanonStr.strip_eq {s : Str} (h : CanonStr s) : pyStrip s = s := by
  obtain ⟨ws, hne, hg, rfl⟩ := h
  exact pyStrip_eq_self _ (joinSpace_head?_nospace ws hg hne)
    (joinSpace_getLast?_nospace ws hg hne)

theorem CanonStr.join_split {s : Str} (h : CanonStr s) :
    joinSpace (splitWords s) = s ∧ splitWords s ≠ [] := by
  obtain ⟨ws, hne, hg, rfl⟩ := h
  rw [joinSpace_split ws hg]
  exact ⟨rfl, hne⟩

theorem CanonStr.append {a b : Str} (ha : CanonStr a) (hb : CanonStr b) :
    CanonStr (a ++ ' ' :: b) := by
  obtain ⟨wsa, hnea, hga, rfl⟩ := ha
  obtain ⟨wsb, hneb, hgb, rfl⟩ := hb
  refine ⟨wsa ++ wsb, by simp [hnea], ?_, ?_⟩
  · intro w hw
    rcases List.mem_append.mp hw with h1 | h1
    · exact hga w h1
    · exact hgb w h1
  · rw [joinSpace_append wsa wsb hnea hneb]

/-! ### `splitWords` ignores leading and trailing whitespace -/

theorem swa_spaces (sp : List Char) (hsp : ∀ c ∈ sp, isSpaceP c = true) :
    ∀ acc, splitWordsAux sp acc = splitWordsAux [] acc := by
  induction sp with
  | nil => intro acc; rfl
  | cons c cs ih =>
    intro acc
    have hc : isSpaceP c = true := hsp c (by simp)
    simp only [splitWordsAux, hc, if_true]
    by_cases h : acc = []
    · rw [if_pos h, ih (fun d hd => hsp d (by simp [hd])) []]
      simp [splitWordsAux, h]
    · rw [if_neg h, ih (fun d hd => hsp d (by simp [hd])) []]
      simp [splitWordsAux, h]

theorem swa_append_spaces (sp : List Char) (hsp : ∀ c ∈ sp, isSpaceP c = true) :
    ∀ (t acc : List Char), splitWordsAux (t ++ sp) acc = splitWordsAux t acc := by
  intro t
  induction t with
  | nil =>
    intro acc
    simpa using swa_spaces sp hsp acc
  | cons c cs ih =>
    intro acc
    simp only [List.cons_append, splitWordsAux, List.append_eq]
    by_cases hc : isSpaceP c
    · rw [if_pos hc, if_pos hc]
      by_cases h : acc = []
      · rw [if_pos h, if_pos h, ih]
      · rw [if_neg h, if_neg h, ih]
    · rw [if_neg hc, if_neg hc, ih]

theorem swa_dropWhile (s : List Char) :
    splitWordsAux (s.dropWhile isSpaceP) [] = splitWordsAux s [] := by
  induction s with
  | nil => rfl
  | cons c cs ih =>
    by_cases hc : isSpaceP c
    · rw [List.dropWhile_cons, if_pos hc, ih]
      simp [splitWordsAux, hc]
    · rw [List.dropWhile_cons, if_neg (by simp [hc])]

theorem splitWords_pyStrip (s : Str) : splitWords (pyStrip s) = splitWords s := by
  unfold pyStrip splitWords
  set u := s.dropWhile isSpaceP with hu
  have hdecomp : u = (u.reverse.dropWhile isSpaceP).reverse ++
      (u.reverse.takeWhile isSpaceP).reverse := by
    have := List.takeWhile_append_dropWhile (p := isSpaceP) (l := u.reverse)
    calc u = u.reverse.reverse := (List.reverse_reverse u).symm
    _ = (u.reverse.takeWhile isSpaceP ++ u.reverse.dropWhile isSpaceP).reverse := by
        rw [this]
    _ = (u.reverse.dropWhile isSpaceP).reverse ++
        (u.reverse.takeWhile isSpaceP).reverse := by
        rw [List.reverse_append]
  have hsp : ∀ c ∈ (u.reverse.takeWhile isSpaceP).reverse, isSpaceP c = true := by
    intro c hc
    rw [List.mem_reverse] at hc
    exact List.mem_takeWhile_imp hc
  calc splitWordsAux (u.reverse.dropWhile isSpaceP).reverse []
      = splitWordsAux ((u.reverse.dropWhile isSpaceP).reverse ++
          (u.reverse.takeWhile isSpaceP).reverse) [] := by
        rw [swa_append_spaces _ hsp]
    _ = splitWordsAux u [] := by rw [← hdecomp]
    _ = splitWordsAux s [] := swa_dropWhile s

/-! ### Shape of the cleaned text -/

/-- No two adjacent whitespace characters. -/
def noTwoSp : List Char → Prop
  | [] => True
  | [_] => True
  | a :: b :: rest => ¬(isSpaceP a = true ∧ isSpaceP b = true) ∧ noTwoSp (b :: rest)

/-- Every whitespace character is a plain space. -/
def onlySp (s : Str) : Prop := ∀ c ∈ s, isSpaceP c = true → c = ' '

def headNS (s : Str) : Prop := ∀ c, s.head? = some c → isSpaceP c = false

def lastNS (s : Str) : Prop := ∀ c, s.getLast? = some c → isSpaceP c = false

/-- The conjunction of the four shape conditions satisfied by cleaned
text and by each of its sentences. -/
def Shaped (s : Str) : Prop := noTwoSp s ∧ onlySp s ∧ headNS s ∧ lastNS s

theorem noTwoSp_tail {a : Char} {l : List Char} (h : noTwoSp (a :: l)) :
    noTwoSp l := by
  cases l with
  | nil => trivial
  | cons b t => exact h.2

theorem noTwoSp_drop (a : List Char) : ∀ {t : List Char},
    noTwoSp (a ++ t) → noTwoSp t := by
  induction a with
  | nil => intro t h; exact h
  | cons c a' ih => intro t h; exact ih (noTwoSp_tail h)

theorem noTwoSp_take : ∀ (t b : List Char), noTwoSp (t ++ b) → noTwoSp t := by
  intro t
  induction t with
  | nil => intro b _; trivial
  | cons x t' ih =>
    intro b h
    cases t' with
    | nil => trivial
    | cons y t'' =>
      rw [List.cons_append] at h
      exact ⟨h.1, ih b h.2⟩

theorem sq_onlySp : ∀ (t : List Char) (b : Bool), onlySp (squeezeAux b t) := by
  intro t
  induction t with
  | nil => intro b c hc; cases b <;> simp [squeezeAux] at hc
  | cons c cs ih =>
    intro b d hd hds
    cases b with
    | true =>
      simp only [squeezeAux] at hd
      by_cases hc : isSpaceP c
      · rw [if_pos hc] at hd
        exact ih true d hd hds
      · rw [if_neg hc] at hd
        rcases List.mem_cons.mp hd with h1 | h1
        · subst h1; simp_all
        · exact ih false d h1 hds
    | false =>
      simp only [squeezeAux] at hd
      by_cases hc : isSpaceP c
      · rw [if_pos hc] at hd
        rcases List.mem_cons.mp hd with h1 | h1
        · exact h1
        · exact ih true d h1 hds
      · rw [if_neg hc] at hd
        rcases List.mem_cons.mp hd with h1 | h1
        · subst h1; simp_all
        · exact ih false d h1 hds

theorem sq_true_headNS : ∀ (t : List Char), headNS (squeezeAux true t) := by
  intro t
  induction t with
  | nil => intro c hc; simp [squeezeAux] at hc
  | cons c cs ih =>
    intro d hd
    simp only [squeezeAux] at hd
    by_cases hc : isSpaceP c
    · rw [if_pos hc] at hd
      exact ih d hd
    · rw [if_neg hc] at hd
      simp only [List.head?_cons, Option.some.injEq] at hd
      rw [← hd]
      simpa using hc

theorem sq_noTwo : ∀ (t : List Char) (b : Bool), noTwoSp (squeezeAux b t) := by
  intro t
  induction t with
  | nil => intro b; cases b <;> simp [squeezeAux, noTwoSp]
  | cons c cs ih =>
    intro b
    cases b with
    | true =>
      simp only [squeezeAux]
      by_cases hc : isSpaceP c
      · rw [if_pos hc]
        exact ih true
      · rw [if_neg hc]
        cases hq : squeezeAux false cs with
        | nil => trivial
        | cons d t' =>
          refine ⟨?_, by rw [← hq]; exact ih false⟩
          intro hpair
          exact absurd hpair.1 (by simp [hc])
    | false =>
      simp only [squeezeAux]
      by_cases hc : isSpaceP c
      · rw [if_pos hc]
        cases hq : squeezeAux true cs with
        | nil => trivial
        | cons d t' =>
          refine ⟨?_, by rw [← hq]; exact ih true⟩
          intro hpair
          have := sq_true_headNS cs d (by rw [hq]; rfl)
          rw [this] at hpair
          exact absurd hpair.2 (by simp)
      · rw [if_neg hc]
        cases hq : squeezeAux false cs with
        | nil => trivial
        | cons d t' =>
          refine ⟨?_, by rw [← hq]; exact ih false⟩
          intro hpair
          exact absurd hpair.1 (by simp [hc])

theorem dropWhile_head?_false {α : Type} (p : α → Bool) :
    ∀ (l : List α) (c : α), (l.dropWhile p).head? = some c → p c = false := by
  intro l
  induction l with
  | nil => intro c hc; simp at hc
  | cons a t ih =>
    intro c hc
    rw [List.dropWhile_cons] at hc
    by_cases ha : p a
    · rw [if_pos ha] at hc
      exact ih c hc
    · rw [if_neg ha] at hc
      simp only [List.head?_cons, Option.some.injEq] at hc
      rw [← hc]
      simpa using ha

/-- `pyStrip s` followed by the stripped trailing whitespace is
`s.dropWhile isSpaceP`. -/
theorem pyStrip_pref (s : Str) :
    pyStrip s ++ ((s.dropWhile isSpaceP).reverse.takeWhile isSpaceP).reverse
      = s.dropWhile isSpaceP := by
  unfold pyStrip
  conv_rhs => rw [← List.reverse_reverse (s.dropWhile isSpaceP),
    ← List.takeWhile_append_dropWhile (p := isSpaceP)
      (l := (s.dropWhile isSpaceP).reverse),
    List.reverse_append]

theorem pyStrip_headNS (s : Str) : headNS (pyStrip s) := by
  intro c hc
  have hne : pyStrip s ≠ [] := by
    intro h; rw [h] at hc; simp at hc
  have h1 := @List.head?_append_of_ne_nil _ (pyStrip s)
    (((s.dropWhile isSpaceP).reverse.takeWhile isSpaceP).reverse) hne
  rw [pyStrip_pref s] at h1
  exact dropWhile_head?_false isSpaceP s c (by rw [h1, hc])

theorem pyStrip_lastNS (s : Str) : lastNS (pyStrip s) := by
  intro c hc
  unfold pyStrip at hc
  rw [List.getLast?_reverse] at hc
  exact dropWhile_head?_false isSpaceP (s.dropWhile isSpaceP).reverse c hc

theorem pyStrip_mem {c : Char} {s : Str} (h : c ∈ pyStrip s) : c ∈ s := by
  have h1 : c ∈ pyStrip s ++ ((s.dropWhile isSpaceP).reverse.takeWhile isSpaceP).reverse :=
    List.mem_append.mpr (Or.inl h)
  rw [pyStrip_pref s] at h1
  exact (List.dropWhile_sublist isSpaceP).subset h1

theorem pyStrip_noTwo {s : Str} (h : noTwoSp s) : noTwoSp (pyStrip s) := by
  obtain ⟨a, ha⟩ := List.dropWhile_suffix (l := s) isSpaceP
  have hu : noTwoSp (s.dropWhile isSpaceP) := noTwoSp_drop a (by rw [ha]; exact h)
  rw [← pyStrip_pref s] at hu
  exact noTwoSp_take _ _ hu

theorem cleanText_shaped (t : Str) : Shaped (cleanText t) := by
  refine ⟨pyStrip_noTwo (sq_noTwo t false), ?_, pyStrip_headNS _, pyStrip_lastNS _⟩
  intro c hc hcs
  exact sq_onlySp t false c (pyStrip_mem hc) hcs

theorem punct_not_space {c : Char} (h : isPunct c = true) : isSpaceP c = false := by
  simp only [isPunct, Bool.or_eq_true, decide_eq_true_eq] at h
  rcases h with (h | h) | h <;> subst h <;> decide

/-! ### Shaped strings are canonical -/

theorem shape_canon_aux : ∀ (n : Nat) (s : Str), s.length ≤ n → Shaped s →
    s ≠ [] → CanonStr s := by
  intro n
  induction n with
  | zero =>
    intro s hl _ hne
    exact absurd (List.length_eq_zero.mp (Nat.le_zero.mp hl)) hne
  | succ n ih =>
    intro s hl hsh hne
    obtain ⟨h2, hsp, hh, hlast⟩ := hsh
    have hs : s.takeWhile (fun c => !(isSpaceP c)) ++
        s.dropWhile (fun c => !(isSpaceP c)) = s :=
      List.takeWhile_append_dropWhile (p := fun c => !(isSpaceP c)) s
    set w := s.takeWhile (fun c => !(isSpaceP c)) with hwdef
    set r := s.dropWhile (fun c => !(isSpaceP c)) with hrdef
    have hw_good : ∀ c ∈ w, isSpaceP c = false := by
      intro c hc
      have := List.mem_takeWhile_imp hc
      simpa using this
    have hw_ne : w ≠ [] := by
      cases hsc : s with
      | nil => exact absurd hsc hne
      | cons a t =>
        have ha : isSpaceP a = false := hh a (by rw [hsc]; rfl)
        rw [hwdef, hsc, List.takeWhile_cons, if_pos (by simpa using ha)]
        simp
    cases hrc : r with
    | nil =>
      refine ⟨[w], by simp, ?_, ?_⟩
      · intro u hu
        rw [List.mem_singleton] at hu
        subst hu
        exact ⟨hw_ne, hw_good⟩
      · have : w ++ ([] : Str) = s := by rw [← hrc]; exact hs
        simp only [List.append_nil] at this
        rw [this]
        rfl
    | cons d r2 =>
      have hd : isSpaceP d = true := by
        have := dropWhile_head?_false (fun c => !(isSpaceP c)) s d
          (by rw [← hrdef, hrc]; rfl)
        simpa using this
      have hsdr : s = (w ++ [d]) ++ r2 := by
        rw [← hs, hrc]
        simp
      cases hr2 : r2 with
      | nil =>
        exfalso
        have : s.getLast? = some d := by
          rw [hsdr, hr2, List.append_nil, List.getLast?_concat]
        exact absurd hd (by simpa using hlast d this)
      | cons e r3 =>
        have hr_suffix : noTwoSp r := noTwoSp_drop w (by rw [hs]; exact h2)
        have he : isSpaceP e = false := by
          rw [hrc, hr2] at hr_suffix
          by_contra hcon
          exact hr_suffix.1 ⟨hd, by simpa using hcon⟩
        have hr2_ne : r2 ≠ [] := by rw [hr2]; simp
        have hlen : r2.length ≤ n := by
          have h1 : s.length = (w ++ [d]).length + r2.length := by
            rw [hsdr, List.length_append]
          have h2' : 1 ≤ w.length := List.length_pos.mpr hw_ne
          have h3 : (w ++ [d]).length = w.length + 1 := by simp
          omega
        have hshape2 : Shaped r2 := by
          refine ⟨?_, ?_, ?_, ?_⟩
          · rw [hrc] at hr_suffix
            exact noTwoSp_tail hr_suffix
          · intro c hc hcs
            exact hsp c (by rw [hsdr]; exact List.mem_append.mpr (Or.inr hc)) hcs
          · intro c hc
            rw [hr2] at hc
            have hec : e = c := by simpa using hc
            rw [← hec]; exact he
          · intro c hc
            refine hlast c ?_
            rw [hsdr, List.getLast?_append_of_ne_nil _ hr2_ne]
            exact hc
        obtain ⟨ws2, hws2_ne, hws2_good, hws2_eq⟩ :=
          ih r2 hlen hshape2 hr2_ne
        refine ⟨w :: ws2, by simp, ?_, ?_⟩
        · intro u hu
          rcases List.mem_cons.mp hu with h1 | h1
          · subst h1; exact ⟨hw_ne, hw_good⟩
          · exact hws2_good u h1
        · have hdmem : d ∈ s := by
            rw [hsdr]; simp
          have hd' : d = ' ' := hsp d hdmem hd
          rw [joinSpace_cons w ws2 hws2_ne, ← hws2_eq, ← hd', hsdr]
          simp

theorem shape_canon (s : Str) (hsh : Shaped s) (hne : s ≠ []) : CanonStr s :=
  shape_canon_aux s.length s le_rfl hsh hne

/-! ### Sentence pieces of a shaped string are shaped -/

theorem ssa_shaped_aux : ∀ (n : Nat) (x acc : List Char), x.length ≤ n →
    Shaped (acc.reverse ++ x) → (acc.reverse ++ x) ≠ [] → (x = [] → acc ≠ []) →
    ∀ p ∈ splitSentencesAux x acc, p ≠ [] ∧ Shaped p := by
  intro n
  induction n with
  | zero =>
    intro x acc hl hsh hne hacc p hp
    have hx : x = [] := List.length_eq_zero.mp (Nat.le_zero.mp hl)
    subst hx
    simp only [splitSentencesAux, List.mem_singleton] at hp
    subst hp
    refine ⟨by simpa using hacc rfl, ?_⟩
    simpa using hsh
  | succ n ih =>
    intro x acc hl hsh hne hacc p hp
    cases x with
    | nil =>
      simp only [splitSentencesAux, List.mem_singleton] at hp
      subst hp
      refine ⟨by simpa using hacc rfl, ?_⟩
      simpa using hsh
    | cons c1 x1 =>
      cases x1 with
      | nil =>
        simp only [splitSentencesAux, List.mem_singleton] at hp
        subst hp
        constructor
        · simp
        · have : (c1 :: acc).reverse = acc.reverse ++ [c1] := by simp
          rw [this]
          simpa using hsh
      | cons c2 rest =>
        simp only [splitSentencesAux] at hp
        by_cases hsplit : isPunct c1 && isSpaceP c2
        · rw [if_pos hsplit] at hp
          have hsplit' : isPunct c1 = true ∧ isSpaceP c2 = true := by
            rw [Bool.and_eq_true] at hsplit
            exact hsplit
          have hc1 : isPunct c1 = true := hsplit'.1
          have hc2 : isSpaceP c2 = true := hsplit'.2
          have hT : acc.reverse ++ c1 :: c2 :: rest =
              ((acc.reverse ++ [c1]) ++ [c2]) ++ rest := by simp
          have hrest_ne : rest ≠ [] := by
            intro hr0
            subst hr0
            have hlast2 : (acc.reverse ++ c1 :: c2 :: ([] : List Char)).getLast?
                = some c2 := by
              have h : acc.reverse ++ c1 :: c2 :: ([] : List Char) =
                  (acc.reverse ++ [c1]) ++ [c2] := by simp
              rw [h, List.getLast?_concat]
            have := hsh.2.2.2 c2 hlast2
            simp [hc2] at this
          rcases List.mem_cons.mp hp with h1 | h1
          · subst h1
            have hprev : (c1 :: acc).reverse = acc.reverse ++ [c1] := by simp
            rw [hprev]
            refine ⟨by simp, ?_, ?_, ?_, ?_⟩
            · refine noTwoSp_take _ (c2 :: rest) ?_
              have : (acc.reverse ++ [c1]) ++ c2 :: rest =
                  acc.reverse ++ c1 :: c2 :: rest := by simp
              rw [this]
              exact hsh.1
            · intro c hc hcs
              refine hsh.2.1 c ?_ hcs
              rw [hT]
              exact List.mem_append.mpr (Or.inl (List.mem_append.mpr
                (Or.inl hc)))
            · intro c hc
              refine hsh.2.2.1 c ?_
              have hne1 : acc.reverse ++ [c1] ≠ [] := by simp
              rw [← @List.head?_append_of_ne_nil _ (acc.reverse ++ [c1])
                (c2 :: rest) hne1] at hc
              have : (acc.reverse ++ [c1]) ++ c2 :: rest =
                  acc.reverse ++ c1 :: c2 :: rest := by simp
              rw [this] at hc
              exact hc
            · intro c hc
              rw [List.getLast?_concat] at hc
              have : c1 = c := by simpa using hc
              rw [← this]
              exact punct_not_space hc1
          · -- p comes from the recursive call on rest with empty acc
            have hrest_head : headNS rest := by
              intro c hc
              have hsuf : noTwoSp (c2 :: rest) :=
                noTwoSp_drop (acc.reverse ++ [c1]) (by
                  have : (acc.reverse ++ [c1]) ++ c2 :: rest =
                      acc.reverse ++ c1 :: c2 :: rest := by simp
                  rw [this]
                  exact hsh.1)
              cases hrc : rest with
              | nil => rw [hrc] at hc; simp at hc
              | cons e r3 =>
                rw [hrc] at hc
                have : e = c := by simpa using hc
                rw [hrc] at hsuf
                by_contra hcon
                exact hsuf.1 ⟨hc2, by rw [this]; simpa using hcon⟩
            refine ih rest [] (by
              have : (c1 :: c2 :: rest).length = rest.length + 2 := by simp
              omega) ?_ (by simpa using hrest_ne)
              (fun h => absurd h hrest_ne) p h1
            refine ⟨?_, ?_, by simpa using hrest_head, ?_⟩
            · simp only [List.reverse_nil, List.nil_append]
              exact noTwoSp_drop (acc.reverse ++ [c1] ++ [c2]) (by
                have : ((acc.reverse ++ [c1]) ++ [c2]) ++ rest =
                    acc.reverse ++ c1 :: c2 :: rest := by simp
                simpa [this] using hsh.1)
            · intro c hc hcs
              refine hsh.2.1 c ?_ hcs
              rw [hT]
              exact List.mem_append.mpr (Or.inr (by simpa using hc))
            · intro c hc
              refine hsh.2.2.2 c ?_
              rw [hT, List.getLast?_append_of_ne_nil _ hrest_ne]
              simpa using hc
        · rw [if_neg hsplit] at hp
          have hT' : (c1 :: acc).reverse ++ c2 :: rest =
              acc.reverse ++ c1 :: c2 :: rest := by simp
          refine ih (c2 :: rest) (c1 :: acc) (by
            have : (c1 :: c2 :: rest).length = (c2 :: rest).length + 1 := by simp
            omega) (by rw [hT']; exact hsh) (by rw [hT']; exact hne)
            (fun h => absurd h (by simp)) p hp

theorem splitSentences_canon (x : Str) (hsh : Shaped x) (hne : x ≠ []) :
    ∀ p ∈ splitSentences x, CanonStr p := by
  intro p hp
  have h := ssa_shaped_aux x.length x [] le_rfl (by simpa using hsh)
    (by simpa using hne) (fun h => absurd h hne) p hp
  exact shape_canon p h.2 h.1

/-- Every sentence of non-empty cleaned text is canonical. -/
theorem sentences_canon (t : Str) (h : cleanText t ≠ []) :
    ∀ p ∈ splitSentences (cleanText t), CanonStr p :=
  splitSentences_canon _ (cleanText_shaped t) h

/-! ### The chunk-accumulation loop -/

/-- The chunk seeded at a cutover is canonical whenever the closed chunk
and the triggering sentence are. -/
theorem canon_overlap_seed (ov : Nat) {cur s : Str} (hcur : CanonStr cur)
    (hs : CanonStr s) :
    CanonStr ((if ov < (splitWords cur).length
      then joinSpace (pySliceLast (splitWords cur) ov) else cur) ++ ' ' :: s) := by
  by_cases h : ov < (splitWords cur).length
  · rw [if_pos h]
    refine CanonStr.append ?_ hs
    have hws : GoodWords (splitWords cur) := words_good cur
    unfold pySliceLast
    by_cases h0 : ov = 0
    · rw [if_pos h0]
      exact ⟨splitWords cur, hcur.join_split.2, hws, rfl⟩
    · rw [if_neg h0]
      refine ⟨(splitWords cur).drop ((splitWords cur).length - ov), ?_, ?_, rfl⟩
      · intro hdrop
        have := List.drop_eq_nil_iff.mp hdrop
        omega
      · intro u hu
        exact hws u (List.mem_of_mem_drop hu)
  · rw [if_neg h]
    exact CanonStr.append hcur hs

/-- For non-zero overlap, the words of the seeded chunk are the trailing
`overlap` words of the closed chunk followed by the words of the
triggering sentence. -/
theorem words_overlap_seed (ov : Nat) {cur : Str} (s : Str) (hcur : CanonStr cur)
    (hov : 1 ≤ ov) :
    splitWords ((if ov < (splitWords cur).length
      then joinSpace (pySliceLast (splitWords cur) ov) else cur) ++ ' ' :: s)
    = (splitWords cur).drop ((splitWords cur).length - ov) ++ splitWords s := by
  rw [splitWords_append_sep]
  congr 1
  by_cases h : ov < (splitWords cur).length
  · rw [if_pos h]
    unfold pySliceLast
    rw [if_neg (by omega)]
    exact joinSpace_split _ (fun u hu => words_good cur u (List.mem_of_mem_drop hu))
  · rw [if_neg h]
    have h0 : (splitWords cur).length - ov = 0 := by omega
    rw [h0, List.drop_zero]

/-- With `overlap = 0` the seeded chunk is the whole closed chunk followed
by the triggering sentence (`words[-0:]` is the entire word list). -/
theorem seed_zero_overlap {cur : Str} (s : Str) (hcur : CanonStr cur) :
    (if 0 < (splitWords cur).length
      then joinSpace (pySliceLast (splitWords cur) 0) else cur) ++ ' ' :: s
    = cur ++ ' ' :: s := by
  congr 1
  have hlen : 0 < (splitWords cur).length := List.length_pos.mpr hcur.join_split.2
  rw [if_pos hlen]
  unfold pySliceLast
  rw [if_pos rfl]
  exact hcur.join_split.1

theorem chunkLoop_ne_nil_mem (chunkSize ov : Nat) : ∀ (rest : List Str) (cur : Str),
    (∀ s ∈ rest, CanonStr s) → (cur = [] ∨ CanonStr cur) →
    ∀ c ∈ chunkLoop chunkSize ov rest cur, c ≠ [] := by
  intro rest
  induction rest with
  | nil =>
    intro cur hrest hcur c hc
    rcases hcur with h | h
    · simp [chunkLoop, h] at hc
    · simp only [chunkLoop, if_neg h.ne_nil, List.mem_singleton] at hc
      subst hc
      rw [h.strip_eq]
      exact h.ne_nil
  | cons s rest ih =>
    intro cur hrest hcur c hc
    have hs := hrest s (by simp)
    simp only [chunkLoop] at hc
    by_cases hcond : cur.length + s.length > chunkSize ∧ cur ≠ []
    · rw [if_pos hcond] at hc
      have hcur' : CanonStr cur := by
        rcases hcur with h | h
        · exact absurd h hcond.2
        · exact h
      rcases List.mem_cons.mp hc with h1 | h1
      · subst h1
        rw [hcur'.strip_eq]
        exact hcur'.ne_nil
      · exact ih _ (fun u hu => hrest u (by simp [hu]))
          (Or.inr (canon_overlap_seed ov hcur' hs)) c h1
    · rw [if_neg hcond] at hc
      by_cases hnil : cur = []
      · rw [if_pos hnil] at hc
        exact ih _ (fun u hu => hrest u (by simp [hu])) (Or.inr hs) c hc
      · rw [if_neg hnil] at hc
        have hcur' : CanonStr cur := by
          rcases hcur with h | h
          · exact absurd h hnil
          · exact h
        exact ih _ (fun u hu => hrest u (by simp [hu]))
          (Or.inr (hcur'.append hs)) c hc

theorem chunkLoop_chain_words (chunkSize ov : Nat) : ∀ (rest : List Str) (cur : Str),
    (∀ s ∈ rest, CanonStr s) → CanonStr cur →
    ∃ c t, chunkLoop chunkSize ov rest cur = c :: t ∧
      (splitWords cur) <+: (splitWords c) ∧
      List.Chain' (fun a b =>
        (splitWords a).drop ((splitWords a).length - ov) <+: splitWords b)
        (c :: t) := by
  intro rest
  induction rest with
  | nil =>
    intro cur hrest hcur
    refine ⟨pyStrip cur, [], ?_, ?_, ?_⟩
    · simp [chunkLoop, hcur.ne_nil]
    · rw [hcur.strip_eq]
    · simp
  | cons s rest ih =>
    intro cur hrest hcur
    have hs := hrest s (by simp)
    by_cases hcond : cur.length + s.length > chunkSize ∧ cur ≠ []
    · obtain ⟨c, t, heq, hhead, hchain⟩ :=
        ih _ (fun u hu => hrest u (by simp [hu])) (canon_overlap_seed ov hcur hs)
      refine ⟨pyStrip cur, c :: t, ?_, ?_, ?_⟩
      · simp only [chunkLoop]
        rw [if_pos hcond, heq]
      · rw [hcur.strip_eq]
      · rw [List.chain'_cons]
        refine ⟨?_, hchain⟩
        rw [hcur.strip_eq]
        by_cases hov : ov = 0
        · subst hov
          simp only [Nat.sub_zero, List.drop_length]
          exact List.nil_prefix
        · have h2 := words_overlap_seed ov s hcur (by omega)
          refine List.IsPrefix.trans ?_ hhead
          rw [h2]
          exact List.prefix_append _ _
    · obtain ⟨c, t, heq, hhead, hchain⟩ :=
        ih _ (fun u hu => hrest u (by simp [hu])) (hcur.append hs)
      refine ⟨c, t, ?_, ?_, hchain⟩
      · simp only [chunkLoop]
        rw [if_neg hcond, if_neg hcur.ne_nil, heq]
      · have h1 : splitWords cur <+: splitWords (cur ++ ' ' :: s) := by
          rw [splitWords_append_sep]
          exact List.prefix_append _ _
        exact h1.trans hhead

theorem chunkLoop_chain_pref (chunkSize : Nat) : ∀ (rest : List Str) (cur : Str),
    (∀ s ∈ rest, CanonStr s) → CanonStr cur →
    ∃ c t, chunkLoop chunkSize 0 rest cur = c :: t ∧ cur <+: c ∧
      List.Chain' (fun a b => a <+: b) (c :: t) := by
  intro rest
  induction rest with
  | nil =>
    intro cur hrest hcur
    refine ⟨pyStrip cur, [], ?_, ?_, ?_⟩
    · simp [chunkLoop, hcur.ne_nil]
    · rw [hcur.strip_eq]
    · simp
  | cons s rest ih =>
    intro cur hrest hcur
    have hs := hrest s (by simp)
    by_cases hcond : cur.length + s.length > chunkSize ∧ cur ≠ []
    · obtain ⟨c, t, heq, hhead, hchain⟩ :=
        ih _ (fun u hu => hrest u (by simp [hu])) (canon_overlap_seed 0 hcur hs)
      rw [seed_zero_overlap s hcur] at heq hhead
      refine ⟨pyStrip cur, c :: t, ?_, ?_, ?_⟩
      · simp only [chunkLoop]
        rw [if_pos hcond]
        rw [show ((if 0 < (splitWords cur).length
            then joinSpace (pySliceLast (splitWords cur) 0) else cur) ++ ' ' :: s)
          = cur ++ ' ' :: s from seed_zero_overlap s hcur, heq]
      · rw [hcur.strip_eq]
      · rw [List.chain'_cons]
        refine ⟨?_, hchain⟩
        rw [hcur.strip_eq]
        exact (List.prefix_append cur (' ' :: s)).trans hhead
    · obtain ⟨c, t, heq, hhead, hchain⟩ :=
        ih _ (fun u hu => hrest u (by simp [hu])) (hcur.append hs)
      refine ⟨c, t, ?_, ?_, hchain⟩
      · simp only [chunkLoop]
        rw [if_neg hcond, if_neg hcur.ne_nil, heq]
      · exact (List.prefix_append cur (' ' :: s)).trans hhead

theorem chunkLoop_words_sub (chunkSize ov : Nat) : ∀ (rest : List Str) (cur : Str),
    List.Sublist (splitWords cur ++ (rest.map splitWords).flatten)
      (((chunkLoop chunkSize ov rest cur).map splitWords).flatten) := by
  intro rest
  induction rest with
  | nil =>
    intro cur
    by_cases h : cur = []
    · simp [chunkLoop, h, splitWords, splitWordsAux]
    · simp only [chunkLoop, if_neg h, List.map_cons, List.map_nil,
        List.flatten_cons, List.flatten_nil, List.map_nil]
      rw [splitWords_pyStrip]
  | cons s rest ih =>
    intro cur
    simp only [chunkLoop, List.map_cons, List.flatten_cons]
    by_cases hcond : cur.length + s.length > chunkSize ∧ cur ≠ []
    · rw [if_pos hcond]
      rw [List.map_cons, List.flatten_cons, splitWords_pyStrip]
      refine List.Sublist.append_left ?_ (splitWords cur)
      have h1 := ih ((if ov < (splitWords cur).length
        then joinSpace (pySliceLast (splitWords cur) ov) else cur) ++ ' ' :: s)
      rw [splitWords_append_sep, List.append_assoc] at h1
      exact (List.sublist_append_right _ _).trans h1
    · rw [if_neg hcond]
      by_cases hnil : cur = []
      · rw [if_pos hnil]
        have h1 := ih s
        subst hnil
        simpa [splitWords, splitWordsAux] using h1
      · rw [if_neg hnil]
        have h1 := ih (cur ++ ' ' :: s)
        rw [splitWords_append_sep] at h1
        simpa [List.append_assoc] using h1

theorem ssa_ne_nil : ∀ (n : Nat) (x acc : List Char), x.length ≤ n →
    splitSentencesAux x acc ≠ [] := by
  intro n
  induction n with
  | zero =>
    intro x acc hl
    have hx : x = [] := List.length_eq_zero.mp (Nat.le_zero.mp hl)
    subst hx
    simp [splitSentencesAux]
  | succ n ih =>
    intro x acc hl
    cases x with
    | nil => simp [splitSentencesAux]
    | cons c1 x1 =>
      cases x1 with
      | nil => simp [splitSentencesAux]
      | cons c2 rest =>
        simp only [splitSentencesAux]
        by_cases hsplit : isPunct c1 && isSpaceP c2
        · rw [if_pos hsplit]
          simp
        · rw [if_neg hsplit]
          refine ih (c2 :: rest) (c1 :: acc) ?_
          simp only [List.length_cons] at hl ⊢
          omega

theorem splitSentences_ne_nil (x : Str) : splitSentences x ≠ [] :=
  ssa_ne_nil x.length x [] le_rfl

theorem chunkLoop_first (chunkSize ov : Nat) (s : Str) (rest : List Str) :
    chunkLoop chunkSize ov (s :: rest) [] = chunkLoop chunkSize ov rest s := by
  simp only [chunkLoop]
  rw [if_neg (by simp)]
  simp

theorem chunkText_of_clean_nil (chunkSize ov : Nat) (text : Str)
    (h : cleanText text = []) : chunk_text chunkSize ov text = [] := by
  unfold chunk_text
  rw [h]
  show chunkLoop chunkSize ov (([] : Str) :: []) [] = []
  rw [chunkLoop_first]
  rfl

theorem sq_true_allspace : ∀ (t : List Char), (∀ c ∈ t, isSpaceP c = true) →
    squeezeAux true t = [] := by
  intro t
  induction t with
  | nil => intro _; rfl
  | cons c cs ih =>
    intro h
    simp only [squeezeAux, h c (by simp), if_true]
    exact ih (fun d hd => h d (by simp [hd]))

theorem cleanText_allspace (t : Str) (h : ∀ c ∈ t, isSpaceP c = true) :
    cleanText t = [] := by
  cases t with
  | nil => rfl
  | cons c cs =>
    have hc : isSpaceP c = true := h c (by simp)
    show pyStrip (squeezeAux false (c :: cs)) = []
    rw [show squeezeAux false (c :: cs) = ' ' :: squeezeAux true cs by
      simp [squeezeAux, hc]]
    rw [sq_true_allspace cs (fun d hd => h d (by simp [hd]))]
    rfl

theorem chunkText_ne_nil_mem (chunkSize ov : Nat) (text : Str) :
    ∀ c ∈ chunk_text chunkSize ov text, c ≠ [] := by
  intro c hc
  by_cases h : cleanText text = []
  · rw [chunkText_of_clean_nil _ _ _ h] at hc
    simp at hc
  · unfold chunk_text at hc
    obtain ⟨s0, rest, hsent⟩ : ∃ s0 rest,
        splitSentences (cleanText text) = s0 :: rest := by
      cases hs : splitSentences (cleanText text) with
      | nil => exact absurd hs (splitSentences_ne_nil _)
      | cons a t => exact ⟨a, t, rfl⟩
    rw [hsent, chunkLoop_first] at hc
    have hcanon := sentences_canon text h
    rw [hsent] at hcanon
    exact chunkLoop_ne_nil_mem chunkSize ov rest s0
      (fun u hu => hcanon u (by simp [hu])) (Or.inr (hcanon s0 (by simp))) c hc

theorem chunkText_chain_words (chunkSize ov : Nat) (text : Str) :
    List.Chain' (fun a b =>
      (splitWords a).drop ((splitWords a).length - ov) <+: splitWords b)
      (chunk_text chunkSize ov text) := by
  by_cases h : cleanText text = []
  · rw [chunkText_of_clean_nil _ _ _ h]
    simp
  · unfold chunk_text
    obtain ⟨s0, rest, hsent⟩ : ∃ s0 rest,
        splitSentences (cleanText text) = s0 :: rest := by
      cases hs : splitSentences (cleanText text) with
      | nil => exact absurd hs (splitSentences_ne_nil _)
      | cons a t => exact ⟨a, t, rfl⟩
    rw [hsent, chunkLoop_first]
    have hcanon := sentences_canon text h
    rw [hsent] at hcanon
    obtain ⟨c, t, heq, _, hchain⟩ := chunkLoop_chain_words chunkSize ov rest s0
      (fun u hu => hcanon u (by simp [hu])) (hcanon s0 (by simp))
    rw [heq]
    exact hchain

theorem chunkText_chain_pref (chunkSize : Nat) (text : Str) :
    List.Chain' (fun a b => a <+: b) (chunk_text chunkSize 0 text) := by
  by_cases h : cleanText text = []
  · rw [chunkText_of_clean_nil _ _ _ h]
    simp
  · unfold chunk_text
    obtain ⟨s0, rest, hsent⟩ : ∃ s0 rest,
        splitSentences (cleanText text) = s0 :: rest := by
      cases hs : splitSentences (cleanText text) with
      | nil => exact absurd hs (splitSentences_ne_nil _)
      | cons a t => exact ⟨a, t, rfl⟩
    rw [hsent, chunkLoop_first]
    have hcanon := sentences_canon text h
    rw [hsent] at hcanon
    obtain ⟨c, t, heq, _, hchain⟩ := chunkLoop_chain_pref chunkSize rest s0
      (fun u hu => hcanon u (by simp [hu])) (hcanon s0 (by simp))
    rw [heq]
    exact hchain

/-! ### Claim theorems about the Chunker -/

/-- Claim C2: for every input text and `target_size`, under non-zero
overlap, for adjacent chunks `c_i, c_{i+1}` of `chunk_text`, the trailing
(up to) `overlap` words of `c_i` form a prefix of the word sequence of
`c_{i+1}` — the new chunk is seeded with the trailing overlap words of the
just-closed chunk followed by the triggering sentence. -/
theorem chunk_overlap_words_pref_of_adjacent (text : Str) (chunkSize ov : Nat)
    (hov : 1 ≤ ov) (i : Nat) (h : i + 1 < (chunk_text chunkSize ov text).length) :
    (splitWords ((chunk_text chunkSize ov text).get ⟨i, by omega⟩)).drop
        ((splitWords ((chunk_text chunkSize ov text).get ⟨i, by omega⟩)).length - ov)
      <+: splitWords ((chunk_text chunkSize ov text).get ⟨i + 1, h⟩) := by
  have hchain := chunkText_chain_words chunkSize ov text
  exact List.chain'_iff_get.mp hchain i (by omega)

/-- Witness for C2 at a concrete input: `chunk_text` with target 10 and
overlap 1 on "aa bb cc. dd ee." yields adjacent chunks, and the trailing
word of the first is a prefix of the second. -/
theorem chunk_overlap_words_pref_witness :
    (splitWords ((chunk_text 10 1 ("aa bb cc. dd ee.").data).get ⟨0, by decide⟩)).drop
        ((splitWords ((chunk_text 10 1 ("aa bb cc. dd ee.").data).get ⟨0, by decide⟩)).length - 1)
      <+: splitWords ((chunk_text 10 1 ("aa bb cc. dd ee.").data).get ⟨1, by decide⟩) :=
  chunk_overlap_words_pref_of_adjacent ("aa bb cc. dd ee.").data 10 1
    (by decide) 0 (by decide)

/-- Claim C6: the word sequence of the sentences of the
whitespace-normalized input, in order, is a subsequence of the word
sequence of the concatenated chunks: re-joining all chunks (ignoring
overlap duplication) contains every sentence of the input in order. -/
theorem chunk_rejoin_contains_sentences (text : Str) (chunkSize ov : Nat) :
    List.Sublist (((splitSentences (cleanText text)).map splitWords).flatten)
      (((chunk_text chunkSize ov text).map splitWords).flatten) := by
  have h := chunkLoop_words_sub chunkSize ov (splitSentences (cleanText text)) []
  simpa [chunk_text, splitWords, splitWordsAux] using h

/-- Claim C7: for `target_size ≥ 1` and any overlap, no chunk returned by
`chunk_text` is empty, and empty or whitespace-only input produces the
empty chunk sequence. -/
theorem chunk_no_empty_chunk_and_blank_input (chunkSize ov : Nat) (text : Str)
    (hcs : 1 ≤ chunkSize) :
    (∀ c ∈ chunk_text chunkSize ov text, c ≠ []) ∧
      (text.all isSpaceP = true → chunk_text chunkSize ov text = []) := by
  refine ⟨chunkText_ne_nil_mem chunkSize ov text, ?_⟩
  intro hall
  exact chunkText_of_clean_nil _ _ _
    (cleanText_allspace text (fun c hc => List.all_eq_true.mp hall c hc))

/-- Witness for C7 at concrete inputs: chunking "a. b." with target 5 and
overlap 2 yields no empty chunk, and whitespace-only input yields the
empty sequence. -/
theorem chunk_no_empty_chunk_witness :
    (∀ c ∈ chunk_text 5 2 ("a. b.").data, c ≠ []) ∧
      (("a. b.").data.all isSpaceP = true → chunk_text 5 2 ("a. b.").data = []) :=
  chunk_no_empty_chunk_and_blank_input 5 2 ("a. b.").data (by decide)

/-- Claim C9 (implicit): with `overlap = 0`, the seed of every new chunk
is the entire just-closed chunk (`words[-0:]` is the whole word list), so
each chunk after the first has the full previous chunk as a prefix. -/
theorem chunk_zero_overlap_prev_chunk_pref (text : Str) (chunkSize : Nat)
    (i : Nat) (h : i + 1 < (chunk_text chunkSize 0 text).length) :
    (chunk_text chunkSize 0 text).get ⟨i, by omega⟩ <+:
      (chunk_text chunkSize 0 text).get ⟨i + 1, h⟩ := by
  have hchain := chunkText_chain_pref chunkSize text
  exact List.chain'_iff_get.mp hchain i (by omega)

/-- Witness for C9 at a concrete input: with overlap 0 and target 10,
"aa bb. cc dd. ee ff." produces several chunks and the first chunk is a
prefix of the second. -/
theorem chunk_zero_overlap_prev_chunk_pref_witness :
    (chunk_text 10 0 ("aa bb. cc dd. ee ff.").data).get ⟨0, by decide⟩ <+:
      (chunk_text 10 0 ("aa bb. cc dd. ee ff.").data).get ⟨1, by decide⟩ :=
  chunk_zero_overlap_prev_chunk_pref ("aa bb. cc dd. ee ff.").data 10 0 (by decide)

/-! ### Properties of `sanitize_collection_name` -/

theorem alnum_valid {c : Char} (h : pyIsAlnum c = true) : validChar c = true := by
  simp [validChar, h]

theorem sanStage1_valid (name : Str) : ∀ c ∈ sanStage1 name, validChar c = true := by
  intro c hc
  simp only [sanStage1, List.mem_map] at hc
  obtain ⟨a, _, heq⟩ := hc
  by_cases h : validChar a
  · rw [if_pos h] at heq
    rw [← heq]
    exact h
  · rw [if_neg h] at heq
    rw [← heq]
    decide

theorem sanStage1_ne_nil {name : Str} (h : name ≠ []) : sanStage1 name ≠ [] := by
  simp [sanStage1, h]

theorem sanStage2_ne_nil {u : Str} (h : u ≠ []) : sanStage2 u ≠ [] := by
  cases u with
  | nil => exact absurd rfl h
  | cons a t =>
    simp only [sanStage2]
    by_cases ha : pyIsAlnum a
    · rw [if_pos ha]; simp
    · rw [if_neg ha]; simp

theorem sanStage2_valid {u : Str} (hv : ∀ c ∈ u, validChar c = true) :
    ∀ c ∈ sanStage2 u, validChar c = true := by
  intro c hc
  cases u with
  | nil => simp [sanStage2] at hc
  | cons a t =>
    simp only [sanStage2] at hc
    by_cases ha : pyIsAlnum a
    · rw [if_pos ha] at hc
      exact hv c hc
    · rw [if_neg ha] at hc
      rcases List.mem_cons.mp hc with h1 | h1
      · subst h1; decide
      · exact hv c h1

theorem sanStage2_headAl {u : Str} (h : u ≠ []) :
    ∀ c, (sanStage2 u).head? = some c → pyIsAlnum c = true := by
  intro c hc
  cases u with
  | nil => exact absurd rfl h
  | cons a t =>
    simp only [sanStage2] at hc
    by_cases ha : pyIsAlnum a
    · rw [if_pos ha] at hc
      have hac : a = c := by simpa using hc
      rw [← hac]; exact ha
    · rw [if_neg ha] at hc
      have hac : 'c' = c := by simpa using hc
      rw [← hac]; decide

theorem sanStage2_getLast (u : Str) : (sanStage2 u).getLast? = u.getLast? := by
  cases u with
  | nil => rfl
  | cons a t =>
    simp only [sanStage2]
    by_cases ha : pyIsAlnum a
    · rw [if_pos ha]
    · rw [if_neg ha]
      show ((['c'] : Str) ++ a :: t).getLast? = (a :: t).getLast?
      exact List.getLast?_append_of_ne_nil _ (by simp)

theorem sanStage3_ne_nil {u : Str} (h : u ≠ []) : sanStage3 u ≠ [] := by
  unfold sanStage3
  split
  · exact h
  · split
    · exact h
    · simp

theorem sanStage3_valid {u : Str} (hv : ∀ c ∈ u, validChar c = true) :
    ∀ c ∈ sanStage3 u, validChar c = true := by
  intro c hc
  unfold sanStage3 at hc
  split at hc
  · exact hv c hc
  · split at hc
    · exact hv c hc
    · rcases List.mem_append.mp hc with h1 | h1
      · exact hv c h1
      · have hc0 : c = '0' := by simpa using h1
        subst hc0; decide

theorem sanStage3_head (u : Str) (h : u ≠ []) :
    (sanStage3 u).head? = u.head? := by
  unfold sanStage3
  split
  · rfl
  · split
    · rfl
    · exact List.head?_append_of_ne_nil u h

theorem sanStage3_lastAl {u : Str} (h : u ≠ []) :
    ∀ c, (sanStage3 u).getLast? = some c → pyIsAlnum c = true := by
  intro c hc
  unfold sanStage3 at hc
  split at hc
  · rename_i hg
    exact absurd (List.getLast?_eq_none_iff.mp hg) h
  · rename_i b hg
    split at hc
    · rename_i hb
      rw [hg] at hc
      have hbc : b = c := by simpa using hc
      rw [← hbc]; exact hb
    · rw [List.getLast?_concat] at hc
      have h0c : '0' = c := by simpa using hc
      rw [← h0c]; decide

theorem sanStage4_ne_nil {u : Str} (h : u ≠ []) : sanStage4 u ≠ [] := by
  unfold sanStage4
  by_cases h3 : u.length < 3
  · rw [if_pos h3]; simp
  · rw [if_neg h3]; exact h

theorem sanStage4_valid {u : Str} (hv : ∀ c ∈ u, validChar c = true) :
    ∀ c ∈ sanStage4 u, validChar c = true := by
  intro c hc
  unfold sanStage4 at hc
  by_cases h3 : u.length < 3
  · rw [if_pos h3] at hc
    rcases List.mem_append.mp hc with h1 | h1
    · exact hv c h1
    · have h2 : c ∈ ['_', 'c', 'o', 'l'] := h1
      have h4 : c = '_' ∨ c = 'c' ∨ c = 'o' ∨ c = 'l' := by simpa using h2
      rcases h4 with rfl | rfl | rfl | rfl <;> decide
  · rw [if_neg h3] at hc
    exact hv c hc

theorem sanStage4_head (u : Str) (h : u ≠ []) :
    (sanStage4 u).head? = u.head? := by
  unfold sanStage4
  by_cases h3 : u.length < 3
  · rw [if_pos h3]
    exact List.head?_append_of_ne_nil u h
  · rw [if_neg h3]

theorem sanStage4_lastAl {u : Str}
    (hl : ∀ c, u.getLast? = some c → pyIsAlnum c = true) :
    ∀ c, (sanStage4 u).getLast? = some c → pyIsAlnum c = true := by
  intro c hc
  unfold sanStage4 at hc
  by_cases h3 : u.length < 3
  · rw [if_pos h3] at hc
    rw [List.getLast?_append_of_ne_nil u
      (show ((("_col").data : Str)) ≠ [] by decide)] at hc
    have : 'l' = c := by
      have h0 : (("_col").data : Str).getLast? = some 'l' := by decide
      rw [h0] at hc
      simpa using hc
    rw [← this]; decide
  · rw [if_neg h3] at hc
    exact hl c hc

theorem sanStage4_len3 (u : Str) (h : u ≠ []) : 3 ≤ (sanStage4 u).length := by
  unfold sanStage4
  by_cases h3 : u.length < 3
  · rw [if_pos h3]
    have h4 : ((("_col").data : Str)).length = 4 := rfl
    rw [List.length_append, h4]
    omega
  · rw [if_neg h3]
    omega

theorem sanStage5_spec {u : Str} (h3 : 3 ≤ u.length)
    (hv : ∀ c ∈ u, validChar c = true)
    (hh : ∀ c, u.head? = some c → pyIsAlnum c = true)
    (hl : ∀ c, u.getLast? = some c → pyIsAlnum c = true) :
    3 ≤ (sanStage5 u).length ∧ (sanStage5 u).length ≤ 63 ∧
    (∀ c ∈ sanStage5 u, validChar c = true) ∧
    (∀ c, (sanStage5 u).head? = some c → pyIsAlnum c = true) ∧
    (∀ c, (sanStage5 u).getLast? = some c → pyIsAlnum c = true) := by
  have hne : u ≠ [] := by
    intro h0; rw [h0] at h3; simp at h3
  have htlen0 : 63 < u.length → (u.take 63).length = 63 := by
    intro h63
    rw [List.length_take]; omega
  have hthead : (u.take 63).head? = u.head? := by
    cases u with
    | nil => exact absurd rfl hne
    | cons a t => rw [List.take_succ_cons]; rfl
  unfold sanStage5
  split
  · rename_i h63
    have htlen : (u.take 63).length = 63 := htlen0 h63
    have htne : u.take 63 ≠ [] := by
      intro h0
      rw [h0] at htlen
      simp at htlen
    split
    · rename_i hg
      exact absurd (List.getLast?_eq_none_iff.mp hg) htne
    · rename_i b hg
      split
      · rename_i hb
        refine ⟨by omega, by omega, ?_, ?_, ?_⟩
        · intro c hc
          exact hv c (List.take_subset 63 u hc)
        · intro c hc
          rw [hthead] at hc
          exact hh c hc
        · intro c hc
          rw [hg] at hc
          have hbc : b = c := by simpa using hc
          rw [← hbc]; exact hb
      · rename_i hb
        have hdl : ((u.take 63).dropLast ++ ['0']).length = 63 := by
          rw [List.length_append, List.length_dropLast]
          simp [htlen]
        refine ⟨by omega, by omega, ?_, ?_, ?_⟩
        · intro c hc
          rcases List.mem_append.mp hc with h1 | h1
          · exact hv c (List.take_subset 63 u (List.dropLast_subset _ h1))
          · have hc0 : c = '0' := by simpa using h1
            subst hc0; decide
        · intro c hc
          rw [List.head?_append_of_ne_nil _ (by
            intro h0
            have hco := congrArg List.length h0
            rw [List.length_dropLast, htlen] at hco
            simp at hco)] at hc
          rw [List.head?_dropLast, if_pos (by omega), hthead] at hc
          exact hh c hc
        · intro c hc
          rw [List.getLast?_concat] at hc
          have h0c : '0' = c := by simpa using hc
          rw [← h0c]; decide
  · rename_i h63
    exact ⟨h3, by omega, hv, hh, hl⟩

theorem sanitize_props (name : Str) (hne : name ≠ []) :
    3 ≤ (sanitize_collection_name name).length ∧
    (sanitize_collection_name name).length ≤ 63 ∧
    (∀ c ∈ sanitize_collection_name name, validChar c = true) ∧
    (∀ c, (sanitize_collection_name name).head? = some c → pyIsAlnum c = true) ∧
    (∀ c, (sanitize_collection_name name).getLast? = some c → pyIsAlnum c = true) := by
  have h1v := sanStage1_valid name
  have h1n := sanStage1_ne_nil hne
  have h2v := sanStage2_valid h1v
  have h2n := sanStage2_ne_nil h1n
  have h2h := sanStage2_headAl h1n
  have h3v := sanStage3_valid h2v
  have h3n := sanStage3_ne_nil h2n
  have h3h : ∀ c, (sanStage3 (sanStage2 (sanStage1 name))).head? = some c →
      pyIsAlnum c = true := by
    intro c hc
    rw [sanStage3_head _ h2n] at hc
    exact h2h c hc
  have h3l := sanStage3_lastAl h2n
  have h4v := sanStage4_valid h3v
  have h4n := sanStage4_ne_nil h3n
  have h4h : ∀ c, (sanStage4 (sanStage3 (sanStage2 (sanStage1 name)))).head? =
      some c → pyIsAlnum c = true := by
    intro c hc
    rw [sanStage4_head _ h3n] at hc
    exact h3h c hc
  have h4l := sanStage4_lastAl h3l
  have h4len := sanStage4_len3 _ h3n
  exact sanStage5_spec h4len h4v h4h h4l

theorem validName_of_props (s : Str) (h1 : 3 ≤ s.length) (h2 : s.length ≤ 63)
    (h3 : ∀ c ∈ s, validChar c = true)
    (h4 : ∀ c, s.head? = some c → pyIsAlnum c = true)
    (h5 : ∀ c, s.getLast? = some c → pyIsAlnum c = true) : validName s = true := by
  have hne : s ≠ [] := by intro h0; rw [h0] at h1; simp at h1
  obtain ⟨hh, hhs⟩ : ∃ c, s.head? = some c := by
    cases s with
    | nil => exact absurd rfl hne
    | cons a t => exact ⟨a, rfl⟩
  obtain ⟨hg, hgs⟩ : ∃ c, s.getLast? = some c := by
    cases hq : s.getLast? with
    | none => exact absurd (List.getLast?_eq_none_iff.mp hq) hne
    | some b => exact ⟨b, rfl⟩
  simp [validName, hhs, hgs, h1, h2, List.all_eq_true.mpr h3,
    h4 hh hhs, h5 hg hgs]

/-- A string already satisfying the collection-name invariant passes
through every stage of `sanitize_collection_name` unchanged. -/
theorem sanitize_fix (s : Str) (h1 : 3 ≤ s.length) (h2 : s.length ≤ 63)
    (h3 : ∀ c ∈ s, validChar c = true)
    (h4 : ∀ c, s.head? = some c → pyIsAlnum c = true)
    (h5 : ∀ c, s.getLast? = some c → pyIsAlnum c = true) :
    sanitize_collection_name s = s := by
  have e1 : sanStage1 s = s := by
    unfold sanStage1
    rw [List.map_congr_left (g := id) (fun a ha => by
      rw [if_pos (h3 a ha)]; rfl), List.map_id]
  have e2 : sanStage2 s = s := by
    cases s with
    | nil => rfl
    | cons a t =>
      simp only [sanStage2]
      rw [if_pos (h4 a rfl)]
  have e3 : sanStage3 s = s := by
    unfold sanStage3
    split
    · rfl
    · rename_i b hg
      rw [if_pos (h5 b hg)]
  have e4 : sanStage4 s = s := by
    unfold sanStage4
    rw [if_neg (by omega)]
  have e5 : sanStage5 s = s := by
    unfold sanStage5
    rw [if_neg (by omega)]
  unfold sanitize_collection_name
  rw [e1, e2, e3, e4, e5]

/-- Claim C1: for every non-empty name, `sanitize_collection_name` is
idempotent and its result satisfies the collection-name invariant
(3-63 characters, all alphanumeric/underscore/hyphen, alphanumeric first
and last character). -/
theorem sanitize_idempotent_and_valid (name : Str) (hne : name ≠ []) :
    sanitize_collection_name (sanitize_collection_name name) =
      sanitize_collection_name name ∧
    validName (sanitize_collection_name name) = true := by
  obtain ⟨p1, p2, p3, p4, p5⟩ := sanitize_props name hne
  exact ⟨sanitize_fix _ p1 p2 p3 p4 p5, validName_of_props _ p1 p2 p3 p4 p5⟩

/-- Witness for C1 at a concrete input: sanitizing "floor 1!" is
idempotent and produces a valid collection name. -/
theorem sanitize_idempotent_and_valid_witness :
    sanitize_collection_name (sanitize_collection_name ("floor 1!").data) =
      sanitize_collection_name ("floor 1!").data ∧
    validName (sanitize_collection_name ("floor 1!").data) = true :=
  sanitize_idempotent_and_valid ("floor 1!").data (by decide)

/-! ### Lemmas about the client state -/

theorem lookupCol_cons (p : Str × Collection) (db : DBState) (x : Str) :
    lookupCol (p :: db) x = if p.1 = x then some p.2 else lookupCol db x := by
  unfold lookupCol
  rw [List.find?_cons]
  by_cases h : p.1 = x
  · rw [decide_eq_true h, if_pos h]
    rfl
  · rw [decide_eq_false h, if_neg h]

theorem updateCol_cons (p : Str × Collection) (db : DBState) (n : Str)
    (f : Collection → Collection) :
    updateCol (p :: db) n f =
      (if p.1 = n then (p.1, f p.2) else p) :: updateCol db n f := rfl

theorem lookupCol_update_ne (db : DBState) (n x : Str)
    (f : Collection → Collection) (hx : x ≠ n) :
    lookupCol (updateCol db n f) x = lookupCol db x := by
  induction db with
  | nil => rfl
  | cons p db ih =>
    by_cases hpn : p.1 = n
    · by_cases hpx : p.1 = x
      · exact absurd (by rw [← hpx]; exact hpn) hx
      · simp [updateCol_cons, lookupCol_cons, hpn, hpx, ih, Ne.symm hx]
    · by_cases hpx : p.1 = x
      · simp [updateCol_cons, lookupCol_cons, hpn, hpx, hx]
      · simp [updateCol_cons, lookupCol_cons, hpn, hpx, ih]

theorem lookupCol_update_eq (db : DBState) (n : Str)
    (f : Collection → Collection) {col : Collection}
    (h : lookupCol db n = some col) :
    lookupCol (updateCol db n f) n = some (f col) := by
  induction db with
  | nil => simp [lookupCol] at h
  | cons p db ih =>
    rw [lookupCol_cons] at h
    by_cases hpn : p.1 = n
    · rw [if_pos hpn] at h
      have hcol : p.2 = col := by simpa using h
      simp [updateCol_cons, lookupCol_cons, hpn, hcol]
    · rw [if_neg hpn] at h
      simp [updateCol_cons, lookupCol_cons, hpn, ih h]

theorem lookupCol_append_ne (db : DBState) (s x : Str) (c : Collection)
    (hx : x ≠ s) : lookupCol (db ++ [(s, c)]) x = lookupCol db x := by
  induction db with
  | nil =>
    simp only [List.nil_append]
    rw [lookupCol_cons, if_neg (fun h => hx h.symm)]
  | cons p db ih =>
    rw [List.cons_append, lookupCol_cons, lookupCol_cons]
    by_cases hpx : p.1 = x
    · rw [if_pos hpx, if_pos hpx]
    · rw [if_neg hpx, if_neg hpx]
      exact ih

theorem lookupCol_append_self (db : DBState) (s : Str) (c : Collection)
    (h : lookupCol db s = none) : lookupCol (db ++ [(s, c)]) s = some c := by
  induction db with
  | nil =>
    simp only [List.nil_append]
    rw [lookupCol_cons, if_pos rfl]
  | cons p db ih =>
    rw [lookupCol_cons] at h
    by_cases hps : p.1 = s
    · rw [if_pos hps] at h
      simp at h
    · rw [if_neg hps] at h
      rw [List.cons_append, lookupCol_cons, if_neg hps]
      exact ih h

/-- After `create_collection`, a collection is present under the
sanitized name: either the pre-existing one or a fresh empty one. -/
theorem createCollection_found (db : DBState) (name : Str) :
    (create_collection db name).2 = sanitize_collection_name name ∧
    ∃ col, lookupCol (create_collection db name).1
        (sanitize_collection_name name) = some col ∧
      (lookupCol db (sanitize_collection_name name) = some col ∨
        (lookupCol db (sanitize_collection_name name) = none ∧
          col = Collection.mk [])) := by
  unfold create_collection
  split
  · rename_i col hl
    exact ⟨rfl, col, hl, Or.inl hl⟩
  · rename_i hl
    exact ⟨rfl, Collection.mk [], lookupCol_append_self db _ _ hl,
      Or.inr ⟨hl, rfl⟩⟩

theorem createCollection_other (db : DBState) (name x : Str)
    (hx : x ≠ sanitize_collection_name name) :
    lookupCol (create_collection db name).1 x = lookupCol db x := by
  unfold create_collection
  split
  · rfl
  · exact lookupCol_append_ne db _ x _ hx

theorem zip3_map_fst {A B C : Type} : ∀ (as : List A) (bs : List B)
    (cs : List C), as.length = bs.length → bs.length = cs.length →
    ((as.zip (bs.zip cs)).map (fun p => p.1)) = as := by
  intro as
  induction as with
  | nil => intro bs cs _ _; rfl
  | cons a as ih =>
    intro bs cs h1 h2
    cases bs with
    | nil => simp at h1
    | cons b bs =>
      cases cs with
      | nil => simp at h2
      | cons c cs =>
        simp only [List.zip_cons_cons, List.map_cons, List.cons.injEq]
        exact ⟨by trivial, ih bs cs (by simpa using h1) (by simpa using h2)⟩

theorem zip3_map_mid {A B C : Type} : ∀ (as : List A) (bs : List B)
    (cs : List C), as.length = bs.length → bs.length = cs.length →
    ((as.zip (bs.zip cs)).map (fun p => p.2.1)) = bs := by
  intro as
  induction as with
  | nil =>
    intro bs cs h1 _
    cases bs with
    | nil => rfl
    | cons b bs => simp at h1
  | cons a as ih =>
    intro bs cs h1 h2
    cases bs with
    | nil => simp at h1
    | cons b bs =>
      cases cs with
      | nil => simp at h2
      | cons c cs =>
        simp only [List.zip_cons_cons, List.map_cons, List.cons.injEq]
        exact ⟨by trivial, ih bs cs (by simpa using h1) (by simpa using h2)⟩

theorem chunkIds_length (fname : Str) (k : Nat) : (chunkIds fname k).length = k := by
  simp [chunkIds]

theorem chunkMetas_length (fname : Str) (chunks : List Str)
    (extra : List (Str × Str)) : (chunkMetas fname chunks extra).length =
      chunks.length := by
  simp [chunkMetas]

theorem pdfBatchItems_docs (text fname : Str) (extra : List (Str × Str)) :
    (pdfBatchItems text fname extra).map (fun it => it.doc) =
      chunk_text 500 50 text := by
  unfold pdfBatchItems
  rw [List.map_map]
  exact zip3_map_mid _ _ _
    (by rw [chunkIds_length])
    (by rw [chunkMetas_length])

theorem pdfBatchItems_ids (text fname : Str) (extra : List (Str × Str)) :
    (pdfBatchItems text fname extra).map (fun it => it.id) =
      (List.range (chunk_text 500 50 text).length).map
        (fun i => fname ++ ("_chunk_").data ++ Nat.toDigits 10 i) := by
  unfold pdfBatchItems
  rw [List.map_map]
  exact zip3_map_fst _ _ _
    (by rw [chunkIds_length])
    (by rw [chunkMetas_length])

/-! ### Claim theorems about the Indexer and the Corpus Store -/

/-- Claim C8: on success, `add_pdf_to_vector_db` returns a count equal to
the number of chunks `chunk_text` produces for the text, and writes
exactly those chunks in one batched call, with ids
`{source_identifier}_chunk_{sequence_index}` for indices `0..count-1`,
appended to the collection stored under the sanitized name. -/
theorem addPdf_count_batch_ids (db : DBState) (cname text fname : Str)
    (extra : List (Str × Str)) :
    (add_pdf_to_vector_db db cname text fname extra).2 =
        (chunk_text 500 50 text).length ∧
    (∃ old : List StoredChunk,
      lookupCol (add_pdf_to_vector_db db cname text fname extra).1
          (sanitize_collection_name cname) =
        some (Collection.mk (old ++ pdfBatchItems text fname extra)) ∧
      (lookupCol db (sanitize_collection_name cname) =
          some (Collection.mk old) ∨
        (lookupCol db (sanitize_collection_name cname) = none ∧ old = []))) ∧
    (pdfBatchItems text fname extra).map (fun it => it.doc) =
      chunk_text 500 50 text ∧
    (pdfBatchItems text fname extra).map (fun it => it.id) =
      (List.range (chunk_text 500 50 text).length).map
        (fun i => fname ++ ("_chunk_").data ++ Nat.toDigits 10 i) := by
  refine ⟨rfl, ?_, pdfBatchItems_docs text fname extra,
    pdfBatchItems_ids text fname extra⟩
  obtain ⟨hname, col, hfound, hcase⟩ := createCollection_found db cname
  refine ⟨col.items, ?_, ?_⟩
  · show lookupCol (updateCol (create_collection db cname).1
        (create_collection db cname).2
        (fun c => Collection.mk (c.items ++ pdfBatchItems text fname extra)))
        (sanitize_collection_name cname) = _
    rw [hname]
    exact lookupCol_update_eq _ _ _ hfound
  · rcases hcase with h | ⟨h1, h2⟩
    · left
      rw [h]
    · right
      rw [h2]
      exact ⟨h1, rfl⟩

/-- Claim C10 (implicit): indexing under a raw name `x` that sanitization
changes stores the data under the sanitized name only; since
`query_vector_db` and `get_collection_stats` look the raw name up without
normalization, the query returns the not-found sentinel and the stats
report non-existence, even though the indexed data exists under the
normalized name. -/
theorem raw_name_query_stats_mismatch (db : DBState) (x text fname q : Str)
    (extra : List (Str × Str)) (n : Nat)
    (qf : Collection → Str → Nat → RawQueryOut)
    (hx : sanitize_collection_name x ≠ x)
    (hnone : lookupCol db x = none) :
    query_vector_db qf (add_pdf_to_vector_db db x text fname extra).1 x q n =
      QueryResult.mk (some (notFoundMsg x)) [] [] [] ∧
    get_collection_stats (add_pdf_to_vector_db db x text fname extra).1 x =
      CollStats.mk x 0 false ∧
    ∃ col, lookupCol (add_pdf_to_vector_db db x text fname extra).1
        (sanitize_collection_name x) = some col ∧
      pdfBatchItems text fname extra <:+ col.items := by
  have hxs : x ≠ sanitize_collection_name x := fun h => hx h.symm
  have hafter : lookupCol (add_pdf_to_vector_db db x text fname extra).1 x = none := by
    show lookupCol (updateCol (create_collection db x).1
        (create_collection db x).2
        (fun c => Collection.mk (c.items ++ pdfBatchItems text fname extra)))
        x = none
    rw [(createCollection_found db x).1]
    rw [lookupCol_update_ne _ _ _ _ hxs]
    rw [createCollection_other db x x hxs]
    exact hnone
  refine ⟨?_, ?_, ?_⟩
  · unfold query_vector_db
    rw [hafter]
  · unfold get_collection_stats
    rw [hafter]
  · obtain ⟨hname, col, hfound, _⟩ := createCollection_found db x
    refine ⟨Collection.mk (col.items ++ pdfBatchItems text fname extra), ?_, ?_⟩
    · show lookupCol (updateCol (create_collection db x).1
          (create_collection db x).2
          (fun c => Collection.mk (c.items ++ pdfBatchItems text fname extra)))
          (sanitize_collection_name x) = _
      rw [hname]
      exact lookupCol_update_eq _ _ _ hfound
    · exact ⟨col.items, rfl⟩

/-- Witness for C10 at concrete inputs: the raw name "a b" sanitizes to
"a_b"; after indexing "hi." under "a b" in an empty store, querying and
stats under "a b" report not-found while the data sits under "a_b". -/
theorem raw_name_query_stats_mismatch_witness :
    query_vector_db (fun _ _ _ => RawQueryOut.mk [] [] [])
        (add_pdf_to_vector_db [] ("a b").data ("hi.").data ("f.pdf").data []).1
        ("a b").data ("q").data 1 =
      QueryResult.mk (some (notFoundMsg ("a b").data)) [] [] [] ∧
    get_collection_stats
        (add_pdf_to_vector_db [] ("a b").data ("hi.").data ("f.pdf").data []).1
        ("a b").data = CollStats.mk ("a b").data 0 false ∧
    ∃ col, lookupCol
        (add_pdf_to_vector_db [] ("a b").data ("hi.").data ("f.pdf").data []).1
        (sanitize_collection_name ("a b").data) = some col ∧
      pdfBatchItems ("hi.").data ("f.pdf").data [] <:+ col.items :=
  raw_name_query_stats_mismatch [] ("a b").data ("hi.").data ("f.pdf").data
    ("q").data [] 1 (fun _ _ _ => RawQueryOut.mk [] [] [])
    (by decide) rfl

/-! ### Claim theorems about the Query Engine and the Answer Synthesizer -/

/-- Claim C4: if the named collection does not exist, `query_vector_db`
returns the structured not-found result — documents, distances and
metadatas all empty plus an error descriptor — instead of raising (the
lookup failure is caught by the `try/except` and converted). -/
theorem query_not_found_sentinel (qf : Collection → Str → Nat → RawQueryOut)
    (db : DBState) (name q : Str) (n : Nat)
    (h : lookupCol db name = none) :
    query_vector_db qf db name q n =
      QueryResult.mk (some (notFoundMsg name)) [] [] [] := by
  unfold query_vector_db
  rw [h]

/-- Witness for C4 at a concrete input: querying "geo" in an empty store
yields the not-found sentinel. -/
theorem query_not_found_sentinel_witness :
    query_vector_db (fun _ _ _ => RawQueryOut.mk [] [] []) [] ("geo").data
        ("q").data 5 =
      QueryResult.mk (some (notFoundMsg ("geo").data)) [] [] [] :=
  query_not_found_sentinel (fun _ _ _ => RawQueryOut.mk [] [] []) []
    ("geo").data ("q").data 5 rfl

/-- Claim C5: `get_collection_stats` never raises: when the underlying
lookup fails it returns `{name, count: 0, exists: false}` with the name as
passed. -/
theorem stats_never_raises (db : DBState) (name : Str)
    (h : lookupCol db name = none) :
    get_collection_stats db name = CollStats.mk name 0 false := by
  unfold get_collection_stats
  rw [h]

/-- Witness for C5 at the concrete scenario of the spec:
`stats("nonexistent")` on an empty store returns
`{name: "nonexistent", count: 0, exists: false}`. -/
theorem stats_never_raises_witness :
    get_collection_stats [] ("nonexistent").data =
      CollStats.mk ("nonexistent").data 0 false :=
  stats_never_raises [] ("nonexistent").data rfl

theorem retrieveContext_docs_empty (qf : Collection → Str → Nat → RawQueryOut)
    (db : DBState) (name q : Str) (n : Nat)
    (h : lookupCol db name = none ∨
      (query_vector_db qf db name q n).documents = []) :
    (retrieve_context qf db name q n).1 = [] := by
  unfold retrieve_context
  rcases h with h | h
  · unfold query_vector_db
    rw [h]
  · unfold query_vector_db at h ⊢
    cases hl : lookupCol db name with
    | none => rfl
    | some col =>
      rw [hl] at h
      simpa using h

theorem retrieveContext_of_no_error (qf : Collection → Str → Nat → RawQueryOut)
    (db : DBState) (name q : Str) (n : Nat)
    (h : (query_vector_db qf db name q n).error = none) :
    retrieve_context qf db name q n =
      ((query_vector_db qf db name q n).documents,
       (query_vector_db qf db name q n).metadatas) := by
  unfold retrieve_context
  rw [h]

theorem generateAnswer_error (gen : Str → Str → Except PyErr Str)
    (question : Str) (chunks : List Str) (e : PyErr)
    (hne : chunks ≠ []) (hgen : ∀ sp up, gen sp up = Except.error e) :
    generate_answer gen question chunks none = errAnswerOf e := by
  unfold generate_answer
  rw [if_neg hne, hgen]

/-- Claim C3: `ask` never propagates an exception.  If the collection does
not exist or retrieval returns zero hits, it returns the fixed fallback
answer with an empty sources list and the generation capability is not
invoked (the result is identical for every `gen`); and when the generation
call raises, the exception is caught and converted into an answer string
beginning with the error message. -/
theorem ask_error_handling (qf : Collection → Str → Nat → RawQueryOut)
    (db : DBState) (name q : Str) (n : Nat) (inc : Bool) :
    ((lookupCol db name = none ∨
        (query_vector_db qf db name q n).documents = []) →
      ∀ gen, ask qf gen db name q n inc =
        AskResult.mk fallbackAnswer (some [])) ∧
    (∀ (gen : Str → Str → Except PyErr Str) (e : PyErr),
      (query_vector_db qf db name q n).error = none →
      (query_vector_db qf db name q n).documents ≠ [] →
      (∀ sp up, gen sp up = Except.error e) →
      (ask qf gen db name q n inc).answer =
          ("Error generating answer: ").data ++ e.msg ∧
        ("Error generating answer: ").data <+: (ask qf gen db name q n inc).answer) := by
  constructor
  · intro h gen
    unfold ask
    rw [if_pos (retrieveContext_docs_empty qf db name q n h)]
  · intro gen e herr hdocs hgen
    have hret := retrieveContext_of_no_error qf db name q n herr
    have hchunks : (retrieve_context qf db name q n).1 =
        (query_vector_db qf db name q n).documents := by rw [hret]
    have hne : ¬ ((retrieve_context qf db name q n).1 = []) := by
      rw [hchunks]
      exact hdocs
    have hanswer : (ask qf gen db name q n inc).answer = errAnswerOf e := by
      unfold ask
      rw [if_neg hne]
      cases inc with
      | true =>
        rw [if_pos rfl]
        show generate_answer gen q (retrieve_context qf db name q n).1 none = _
        exact generateAnswer_error gen q _ e hne hgen
      | false =>
        rw [if_neg (by simp)]
        show generate_answer gen q (retrieve_context qf db name q n).1 none = _
        exact generateAnswer_error gen q _ e hne hgen
    refine ⟨hanswer, ?_⟩
    rw [hanswer]
    exact List.prefix_append _ _

/-- Witness for C3 at concrete inputs: asking in an empty store returns
the fallback for an always-failing generator, and with a one-collection
store whose search returns one hit, a raising generator is converted into
an error-prefixed answer. -/
theorem ask_error_handling_witness :
    (ask (fun _ _ _ => RawQueryOut.mk [] [] [])
        (fun _ _ => Except.error (PyErr.mk ("boom").data)) [] ("c").data
        ("q").data 5 true = AskResult.mk fallbackAnswer (some [])) ∧
    ((ask (fun _ _ _ => RawQueryOut.mk [("doc").data] [0]
          [ChunkMeta.mk ("f.pdf").data 0 3 []])
        (fun _ _ => Except.error (PyErr.mk ("boom").data))
        [(("c").data, Collection.mk [])] ("c").data ("q").data 5 true).answer =
      ("Error generating answer: ").data ++ ("boom").data) := by
  constructor
  · exact (ask_error_handling (fun _ _ _ => RawQueryOut.mk [] [] []) []
      ("c").data ("q").data 5 true).1 (Or.inl rfl)
      (fun _ _ => Except.error (PyErr.mk ("boom").data))
  · exact ((ask_error_handling
      (fun _ _ _ => RawQueryOut.mk [("doc").data] [0]
        [ChunkMeta.mk ("f.pdf").data 0 3 []])
      [(("c").data, Collection.mk [])] ("c").data ("q").data 5 true).2
      (fun _ _ => Except.error (PyErr.mk ("boom").data))
      (PyErr.mk ("boom").data) (by decide) (by decide)
      (fun _ _ => rfl)).1

end MPC
